import Mathlib

/-!
Verification of the Research Paper Finder core (`research_paper_finder/core.py`).

The Python source is shallowly embedded below: pure functions become Lean
functions over `String` / `List Char`, the network layer is abstracted by
response-valued parameters, and exceptions become `Option` / `Except` /
explicit result markers.  Python semantic details that are modelled:
`str.lower` / `str.strip` / regex character classes are modelled over ASCII
(the source's term lists and patterns are ASCII), and the `re` patterns used
by the source are embedded as dedicated backtracking matchers with Python's
leftmost / greedy / alternation-order semantics.
-/

namespace RPF

/-- ASCII whitespace as matched by Python's `str.strip()` / `\s` (ASCII part). -/
def pySpace (c : Char) : Bool :=
  c = ' ' || c = '\t' || c = '\n' || c = '\r' || c = '\x0b' || c = '\x0c'

/-- Python `str.strip()` on a character list. -/
def pyStripL (cs : List Char) : List Char :=
  ((cs.dropWhile pySpace).reverse.dropWhile pySpace).reverse

/-- Python `str.strip()`. -/
def pyStrip (s : String) : String :=
  String.mk (pyStripL s.data)

/-- `pat` occurs as a contiguous substring of `hay` (Python `pat in hay`). -/
def containsSub : List Char → List Char → Bool
  | [], pat => pat.isEmpty
  | c :: rest, pat => pat.isPrefixOf (c :: rest) || containsSub rest pat

/-- Python `pat in hay` on strings. -/
def strContains (hay pat : String) : Bool :=
  containsSub hay.data pat.data

/-- Python `s.split(',')` (single-character separator, keeps empty segments). -/
def splitOnComma : List Char → List (List Char)
  | [] => [[]]
  | c :: rest =>
    if c = ',' then [] :: splitOnComma rest
    else
      match splitOnComma rest with
      | p :: ps => (c :: p) :: ps
      | [] => [[c]]

/-- Python `str.lower()` (ASCII model; the source's term lists are ASCII). -/
def pyLower (s : String) : String :=
  String.mk (s.data.map Char.toLower)

/-- Python `str()` conversion of a possibly-`None` string value (f-string field). -/
def pyStr : Option String → String
  | none => "None"
  | some s => s

/-- Python truthiness of a possibly-`None` string value. -/
def pyTruthy : Option String → Bool
  | none => false
  | some s => s ≠ ""

/-- Python `str.isalpha()` (ASCII model). -/
def pyIsAlpha (s : String) : Bool :=
  s ≠ "" && s.data.all Char.isAlpha

/-- Decimal value of a digit list. -/
def digitsVal (ds : List Char) : Nat :=
  ds.foldl (fun acc c => acc * 10 + (c.toNat - '0'.toNat)) 0

mutual
/-- Python `int()` digit grammar (PEP 515): `digit+ ('_' digit+)*` — a
leading digit, with each underscore standing between digits. -/
def pyDigitsOK : List Char → Bool
  | [] => false
  | c :: rest => c.isDigit && pyDigitsTail rest

def pyDigitsTail : List Char → Bool
  | [] => true
  | c :: rest =>
    if c = '_' then
      match rest with
      | [] => false
      | d :: rest2 => d.isDigit && pyDigitsTail rest2
    else c.isDigit && pyDigitsTail rest
end

/-- Python `int(str)`: optional surrounding whitespace, optional sign, then
underscore-grouped digits (PEP 515); the value ignores the underscores. -/
def pyIntCore : List Char → Option Int
  | [] => none
  | '+' :: ds =>
    if pyDigitsOK ds then some (digitsVal (ds.filter (fun c => c ≠ '_')))
    else none
  | '-' :: ds =>
    if pyDigitsOK ds then some (-(digitsVal (ds.filter (fun c => c ≠ '_'))) : Int)
    else none
  | ds =>
    if pyDigitsOK ds then some (digitsVal (ds.filter (fun c => c ≠ '_')))
    else none

def pyInt (s : String) : Option Int :=
  pyIntCore (pyStripL s.data)

/-- Python `f"{n:02d}"`. -/
def pad2 (n : Int) : String :=
  if 0 ≤ n ∧ n ≤ 9 then "0" ++ toString n else toString n

/-- `datetime.strptime(m, '%b').month`: case-insensitive 3-letter English month
abbreviation, `none` when unparseable (raises `ValueError` in the source). -/
def monthAbbrevNum (s : String) : Option Int :=
  match pyLower s with
  | "jan" => some 1 | "feb" => some 2 | "mar" => some 3 | "apr" => some 4
  | "may" => some 5 | "jun" => some 6 | "jul" => some 7 | "aug" => some 8
  | "sep" => some 9 | "oct" => some 10 | "nov" => some 11 | "dec" => some 12
  | _ => none

/-- Python `'; '.join(xs)`. -/
def joinSemi : List String → String
  | [] => ""
  | [x] => x
  | x :: y :: xs => x ++ "; " ++ joinSemi (y :: xs)

/-! ## Term lists (`PHARMA_BIOTECH_KEYWORDS`, `ACADEMIC_KEYWORDS`) -/

def PHARMA_BIOTECH_KEYWORDS : List String := [
  "pharma", "biotech", "therapeutics", "bioscience", "biopharm",
  "laboratories", "biopharma", "pharmaceutical", "biotechnology",
  "pfizer", "novartis", "roche", "merck", "johnson & johnson", "j&j",
  "astrazeneca", "glaxosmithkline", "gsk", "sanofi", "abbvie",
  "gilead", "amgen", "biogen", "regeneron", "moderna", "biontech",
  "vertex", "alexion", "genentech", "boehringer", "takeda", "bayer",
  "bristol myers squibb", "eli lilly", "novo nordisk", "inc", "corp",
  "ltd", "llc", "co", "company", "corporation"]

def ACADEMIC_KEYWORDS : List String := [
  "university", "college", "school", "institute of technology",
  "polytechnic", "academy", "faculty", "department of", "hospital",
  "medical center", "clinic", "foundation", "research institute",
  "national institute", "laboratory of", "center for"]

/-- `ResearchPaperFinder.is_non_academic_affiliation`. -/
def is_non_academic_affiliation (affiliation : String) : Bool :=
  if affiliation = "" then false
  else
    let lo := pyLower affiliation
    if ACADEMIC_KEYWORDS.any (fun k => strContains lo k) then false
    else PHARMA_BIOTECH_KEYWORDS.any (fun k => strContains lo k)

/-! ## Embedded regular expressions

`extract_company_name` uses `re.search` with two patterns of the common shape
`([A-Z][A-Za-z0-9\-\s]+(?:ALT1|ALT2|...))` where every alternative is a string
literal.  The embedding below implements exactly Python's backtracking
semantics for this shape: scan start positions left to right; at a start
position the first character must be `[A-Z]`, the `+`-body is greedy (longest
body first, retracting one character at a time), and at each retraction the
alternatives are tried in pattern order (`X\.?` expands to trying `X.` before
`X`, `(?:...)?` tries the long form first). -/

/-- The character class `[A-Za-z0-9\-\s]` (ASCII `\s` model). -/
def bodyChar (c : Char) : Bool :=
  c.isUpper || c.isLower || c.isDigit || c = '-' || pySpace c

/-- Try the literal alternatives in order against `rem`; return the first
that is a prefix of `rem`. -/
def firstAlt (alts : List (List Char)) (rem : List Char) : Option (List Char) :=
  alts.find? (fun a => a.isPrefixOf rem)

/-- Greedy `+`-body then alternation: try body length `k, k-1, ..., 1`. -/
def tryBody (alts : List (List Char)) (rest : List Char) : Nat → Option (List Char)
  | 0 => none
  | k + 1 =>
    match firstAlt alts (rest.drop (k + 1)) with
    | some alt => some (rest.take (k + 1) ++ alt)
    | none => tryBody alts rest k

/-- Try to match the pattern anchored at the current position. -/
def tryAt (alts : List (List Char)) : List Char → Option (List Char)
  | [] => none
  | c :: rest =>
    if c.isUpper then
      match tryBody alts rest (rest.takeWhile bodyChar).length with
      | some t => some (c :: t)
      | none => none
    else none

/-- `re.search`: leftmost match wins. -/
def reSearch (alts : List (List Char)) : List Char → Option (List Char)
  | [] => none
  | c :: rest =>
    match tryAt alts (c :: rest) with
    | some m => some m
    | none => reSearch alts rest

/-- Alternatives of pattern 1
`(?:Inc\.?|LLC|Ltd\.?|Corp\.?|Corporation|Company|Co\.|GmbH|S\.A\.|B\.V\.|N\.V\.)`
in backtracking preference order. -/
def pat1Alts : List (List Char) :=
  ["Inc.", "Inc", "LLC", "Ltd.", "Ltd", "Corp.", "Corp", "Corporation",
   "Company", "Co.", "GmbH", "S.A.", "B.V.", "N.V."].map String.data

/-- Alternatives of pattern 2
`(?:Pharma(?:ceuticals)?|Biotech(?:nology)?|Therapeutics|Biosciences?)`
in backtracking preference order. -/
def pat2Alts : List (List Char) :=
  ["Pharmaceuticals", "Pharma", "Biotechnology", "Biotech", "Therapeutics",
   "Biosciences", "Bioscience"].map String.data

/-- Keyword-based fallback of `extract_company_name`: first comma-segment
whose stripped form is shorter than 50 characters and whose lower-cased form
contains a pharma/biotech keyword. -/
def fallbackSegment (parts : List (List Char)) : Option String :=
  parts.findSome? (fun part =>
    let p := String.mk (pyStripL part)
    if PHARMA_BIOTECH_KEYWORDS.any
        (fun kw => strContains (pyLower p) kw && decide (p.length < 50)) then
      some p
    else none)

/-- `ResearchPaperFinder.extract_company_name`. -/
def extract_company_name (affiliation : String) : Option String :=
  if affiliation = "" then none
  else
    match reSearch pat1Alts affiliation.data with
    | some m => some (pyStrip (String.mk m))
    | none =>
      match reSearch pat2Alts affiliation.data with
      | some m => some (pyStrip (String.mk m))
      | none => fallbackSegment (splitOnComma affiliation.data)

/-! ## Embedded email regular expression

`re.search(r'[\w.+-]+@[\w-]+\.[\w.-]+', s)`.  Because `@` is not in the local
class, `.` is not in the first domain class, and the final class is greedy
with nothing following, Python's backtracking search for this pattern is
equivalent to: at each start position take the maximal `[\w.+-]` run, require
`@`, take the maximal `[\w-]` run, require `.`, take the maximal `[\w.-]`
run, all runs non-empty; leftmost start wins. -/

def wordChar (c : Char) : Bool := c.isAlpha || c.isDigit || c = '_'
def emailLocalChar (c : Char) : Bool := wordChar c || c = '.' || c = '+' || c = '-'
def emailDom1Char (c : Char) : Bool := wordChar c || c = '-'
def emailDom2Char (c : Char) : Bool := wordChar c || c = '.' || c = '-'

def emailTryAt (cs : List Char) : Option (List Char) :=
  let r1 := cs.takeWhile emailLocalChar
  if r1.length = 0 then none
  else
    match cs.drop r1.length with
    | [] => none
    | c :: rest2 =>
      if c = '@' then
        let r2 := rest2.takeWhile emailDom1Char
        if r2.length = 0 then none
        else
          match rest2.drop r2.length with
          | [] => none
          | c2 :: rest3 =>
            if c2 = '.' then
              let r3 := rest3.takeWhile emailDom2Char
              if r3.length = 0 then none
              else some (r1 ++ '@' :: r2 ++ '.' :: r3)
            else none
      else none

def emailSearchL : List Char → Option (List Char)
  | [] => none
  | c :: rest =>
    match emailTryAt (c :: rest) with
    | some m => some m
    | none => emailSearchL rest

/-- `re.search(r'[\w.+-]+@[\w-]+\.[\w.-]+', s)`, returning `group(0)`. -/
def emailSearch (s : String) : Option String :=
  (emailSearchL s.data).map String.mk

/-! ## XML document model (`xml.etree.ElementTree`)

An element has a tag, an optional text (the text before the first child;
`None` in Python is `none` here) and a list of children.  `find('X')`
searches direct children, `find('.//X')` / `findall('.//X')` search all
proper descendants in document (preorder) order, and `findall('.//*')`
returns all proper descendants in document order. -/

inductive Xml where
  | mk (tag : String) (text : Option String) (children : List Xml)
deriving Repr

def Xml.tag : Xml → String
  | .mk t _ _ => t

def Xml.text : Xml → Option String
  | .mk _ t _ => t

def Xml.children : Xml → List Xml
  | .mk _ _ cs => cs

mutual
/-- All proper descendants in document (preorder) order: `findall('.//*')`. -/
def Xml.descendants : Xml → List Xml
  | .mk _ _ cs => descList cs

def descList : List Xml → List Xml
  | [] => []
  | c :: cs => c :: Xml.descendants c ++ descList cs
end

/-- `elem.find('X')` (direct children). -/
def Xml.findDirect (e : Xml) (t : String) : Option Xml :=
  e.children.find? (fun c => c.tag = t)

/-- `elem.find('.//X')`. -/
def Xml.findDesc (e : Xml) (t : String) : Option Xml :=
  e.descendants.find? (fun c => c.tag = t)

/-- `elem.findall('.//X')`. -/
def Xml.findAllDesc (e : Xml) (t : String) : List Xml :=
  e.descendants.filter (fun c => c.tag = t)

/-! ## Publication date (`parse_pubmed_article`, date block)

The date block catches `ValueError` and `AttributeError` only, degrading to
`year if year else "N/A"`.  `int(None)` raises `TypeError`, which escapes the
block (and is then swallowed by the function-level `except Exception`,
dropping the whole record).  `PyResult.exn` marks that escape. -/

inductive PyResult (α : Type) where
  | ok (a : α)
  | exn
deriving Repr, DecidableEq

/-- The Python value of the `year` local of the date block. -/
def dateYearVal (y : Option (Option String)) : Option String :=
  match y with | none => some "" | some t => t

/-- The Python value of the `month` local of the date block. -/
def dateMonthVal (m : Option (Option String)) : Option String :=
  match m with | none => some "01" | some t => t

/-- The Python value of the `day` local of the date block. -/
def dateDayVal (d : Option (Option String)) : Option String :=
  match d with | none => some "01" | some t => t

/-- The date block, as a function of the `Year`/`Month`/`Day` sub-elements of
a present `PubDate` element (outer `Option` = element present, inner
`Option String` = its text, which may be `None`). -/
def parse_pub_date (yearElem monthElem dayElem : Option (Option String)) :
    PyResult String :=
  let year : Option String := dateYearVal yearElem
  let day : Option String := dateDayVal dayElem
  let degrade : String := if pyTruthy year then pyStr year else "N/A"
  match dateMonthVal monthElem with
  | none => .ok degrade             -- month.isalpha() raises AttributeError, caught
  | some m =>
    -- the month value `int(month)` would produce, if it does not raise
    let monthInt : Option Int :=
      if pyIsAlpha m then monthAbbrevNum m else pyInt m
    if pyTruthy year then
      match monthInt with
      | none => .ok degrade         -- strptime / int(month) raises ValueError, caught
      | some mi =>
        match day with
        | none => .exn              -- int(None) raises TypeError, NOT caught
        | some d =>
          match pyInt d with
          | none => .ok degrade     -- int(day) raises ValueError, caught
          | some di => .ok (pyStr year ++ "-" ++ pad2 mi ++ "-" ++ pad2 di)
    else
      -- the f-string conditional takes the "N/A" branch without evaluating
      -- int(month) / int(day); a ValueError from strptime on an alphabetic
      -- month is raised and caught before that point, but `degrade` is also
      -- "N/A" there since the year is falsy
      if pyIsAlpha m ∧ monthAbbrevNum m = none then .ok degrade
      else .ok "N/A"

/-- `pub_date` for a whole article: `"N/A"` when no `PubDate` node exists. -/
def computePubDate (article : Xml) : PyResult String :=
  match article.findDesc "PubDate" with
  | none => .ok "N/A"
  | some pd =>
    parse_pub_date
      ((pd.findDirect "Year").map Xml.text)
      ((pd.findDirect "Month").map Xml.text)
      ((pd.findDirect "Day").map Xml.text)

/-! ## `parse_pubmed_article` -/

/-- Python set insertion (`set.add`), modelled as an insertion-ordered
duplicate-free list.  (CPython set iteration order is unspecified; the claims
below never depend on it.) -/
def setAdd (l : List String) (x : String) : List String :=
  if x ∈ l then l else l ++ [x]

/-- The Python value of the `author_name` local after the name block
(`none` = Python `None`). -/
def authorNameVal (a : Xml) : Option String :=
  match a.findDirect "LastName" with
  | none => some ""
  | some lastEl =>
    match a.findDirect "ForeName" with
    | some foreEl => some (pyStr foreEl.text ++ " " ++ pyStr lastEl.text)
    | none =>
      match a.findDirect "Initials" with
      | some iEl => some (pyStr iEl.text ++ " " ++ pyStr lastEl.text)
      | none => lastEl.text

/-- The `author_affiliations` list: texts of `.//AffiliationInfo/Affiliation`
that are present and non-empty; if that list is empty, the direct
`Affiliation` child is consulted. -/
def authorAffiliations (a : Xml) : List String :=
  let fromInfo := (a.findAllDesc "AffiliationInfo").filterMap (fun ai =>
    match ai.findDirect "Affiliation" with
    | some affEl =>
      match affEl.text with
      | some t => if t ≠ "" then some t else none
      | none => none
    | none => none)
  if fromInfo = [] then
    match a.findDirect "Affiliation" with
    | some affEl =>
      match affEl.text with
      | some t => if t ≠ "" then [t] else []
      | none => []
    | none => []
  else fromInfo

/-- The accumulating locals of the author loop. -/
structure ParseState where
  authors : List String
  affiliations : List String
  nonAcademicAuthors : List String
  companyAffiliations : List String
  correspondingEmail : String
deriving Repr, DecidableEq

/-- One iteration of `for affiliation in author_affiliations` (classification
part); the `Bool` component is the `is_non_academic` flag. -/
def processAffiliation (acc : ParseState × Bool) (aff : String) : ParseState × Bool :=
  let st := { acc.1 with affiliations := acc.1.affiliations ++ [aff] }
  if is_non_academic_affiliation aff then
    match extract_company_name aff with
    | some cn =>
      ({ st with companyAffiliations := setAdd st.companyAffiliations cn }, true)
    | none => (st, true)
  else (st, acc.2)

/-- One iteration of `for author_elem in author_list.findall('Author')`. -/
def processAuthor (st : ParseState) (a : Xml) : ParseState :=
  let nameVal := authorNameVal a
  if pyTruthy nameVal then
    let name := pyStr nameVal
    let affs := authorAffiliations a
    let st := { st with authors := st.authors ++ [name] }
    let stFlag := affs.foldl processAffiliation (st, false)
    let st := stFlag.1
    let st :=
      if stFlag.2 then
        { st with nonAcademicAuthors := st.nonAcademicAuthors ++ [name] }
      else st
    if st.correspondingEmail = "N/A" then
      match affs.findSome? emailSearch with
      | some e => { st with correspondingEmail := e }
      | none => st
    else st
  else st

/-- `author_list.findall('Author')` (direct children), empty when there is no
`AuthorList` node. -/
def authorElems (article : Xml) : List Xml :=
  match article.findDesc "AuthorList" with
  | none => []
  | some al => al.children.filter (fun c => c.tag = "Author")

/-- The locals of `parse_pubmed_article` just before the result dict is
assembled. -/
structure ParsedArticle where
  pmid : Option String
  title : Option String
  pubDate : String
  authors : List String
  affiliations : List String
  nonAcademicAuthors : List String
  companyAffiliations : List String
  correspondingEmail : String
deriving Repr, DecidableEq

/-- `parse_pubmed_article` up to (but not including) dict assembly.  `none`
exactly when the uncaught `TypeError` of the date block reaches the
function-level `except Exception` handler (which logs and returns `None`). -/
def parseArticle (article : Xml) : Option ParsedArticle :=
  let pmid := match article.findDesc "PMID" with | none => some "N/A" | some e => e.text
  let title := match article.findDesc "ArticleTitle" with | none => some "N/A" | some e => e.text
  match computePubDate article with
  | .exn => none
  | .ok pubDate =>
    let st := (authorElems article).foldl processAuthor ⟨[], [], [], [], "N/A"⟩
    let email :=
      if st.correspondingEmail = "N/A" then
        match article.descendants.findSome? (fun el =>
          match el.text with
          | some t => if t ≠ "" && strContains t "@" then emailSearch t else none
          | none => none) with
        | some e => e
        | none => "N/A"
      else st.correspondingEmail
    some { pmid := pmid, title := title, pubDate := pubDate,
           authors := st.authors, affiliations := st.affiliations,
           nonAcademicAuthors := st.nonAcademicAuthors,
           companyAffiliations := st.companyAffiliations,
           correspondingEmail := email }

/-- The `paper_info` dict returned by `parse_pubmed_article`. -/
structure PaperRow where
  pubmedID : Option String
  title : Option String
  publicationDate : String
  nonAcademicAuthorsField : String
  companyAffiliationsField : String
  correspondingEmailField : String
  allAuthors : String
  allAffiliations : String
deriving Repr, DecidableEq

def paperDict (p : ParsedArticle) : PaperRow :=
  { pubmedID := p.pmid
    title := p.title
    publicationDate := p.pubDate
    nonAcademicAuthorsField :=
      if p.nonAcademicAuthors ≠ [] then joinSemi p.nonAcademicAuthors else "N/A"
    companyAffiliationsField :=
      if p.companyAffiliations ≠ [] then joinSemi p.companyAffiliations else "N/A"
    correspondingEmailField := p.correspondingEmail
    allAuthors := joinSemi p.authors
    allAffiliations := joinSemi p.affiliations }

/-- `ResearchPaperFinder.parse_pubmed_article`. -/
def parse_pubmed_article (article : Xml) : Option PaperRow :=
  (parseArticle article).map paperDict

/-! ## Retrieval client and orchestrator -/

/-- `filter_papers_with_pharma_biotech_affiliations`. -/
def filter_papers_with_pharma_biotech_affiliations (papers : List PaperRow) :
    List PaperRow :=
  papers.filter (fun p => p.companyAffiliationsField ≠ "N/A")

/-- Outcome of one batch-level `requests.get` + `ET.fromstring`:
a successful response is abstracted as the list of `PubmedArticle` nodes
found in it; the two `except` arms of the batch loop are the other cases. -/
inductive BatchOutcome where
  | ok (articles : List Xml)
  | transportErr
  | xmlErr

/-- `pmids[i:i+100]` batching, with a structural fuel argument (the fuel is
always at least the list length, so the `0, _ :: _` case is never reached). -/
def chunksGo : Nat → List String → List (List String)
  | _, [] => []
  | 0, _ :: _ => []
  | n + 1, l@(_ :: _) => l.take 100 :: chunksGo n (l.drop 100)

/-- `pmids[i:i+100]` batching (`for i in range(0, len(pmids), batch_size)`). -/
def chunks100 (l : List String) : List (List String) :=
  chunksGo l.length l

/-- Observable behaviour of `fetch_paper_details`: parsed rows, number of
remote calls issued, and the `time.sleep` log in seconds. -/
structure FetchOut where
  papers : List PaperRow
  calls : Nat
  sleeps : List ℚ
deriving DecidableEq

/-- The `for i in range(0, len(pmids), batch_size)` loop.  On a successful
batch the articles are parsed and an unconditional-looking `time.sleep(0.5)`
runs; the `except` arms skip both the append *and* the sleep. -/
def fetchGo (net : List String → BatchOutcome) : List (List String) → FetchOut
  | [] => ⟨[], 0, []⟩
  | b :: bs =>
    let rest := fetchGo net bs
    match net b with
    | .ok arts =>
      ⟨arts.filterMap parse_pubmed_article ++ rest.papers, rest.calls + 1,
        (1 / 2 : ℚ) :: rest.sleeps⟩
    | .transportErr => ⟨rest.papers, rest.calls + 1, rest.sleeps⟩
    | .xmlErr => ⟨rest.papers, rest.calls + 1, rest.sleeps⟩

/-- `ResearchPaperFinder.fetch_paper_details`. -/
def fetch_paper_details (pmids : List String) (net : List String → BatchOutcome) :
    FetchOut :=
  if pmids = [] then ⟨[], 0, []⟩ else fetchGo net (chunks100 pmids)

/-- `ResearchPaperFinder.validate_query`: `some msg` models a raised
`ValidationError`. -/
def validate_query (query : String) : Option String :=
  if query = "" || pyStrip query = "" then some "Search query cannot be empty"
  else if query.length > 1000 then
    some "Search query is too long (max 1000 characters)"
  else none

/-- Result of `search_papers` together with whether any network request was
issued (`netIds` abstracts the id list of a successful search response). -/
structure SearchOut where
  result : Except String (List String)
  networkCalled : Bool

/-- `ResearchPaperFinder.search_papers`. -/
def search_papers (query : String) (maxResults : Int) (netIds : List String) :
    SearchOut :=
  match validate_query query with
  | some e => ⟨.error e, false⟩
  | none =>
    if maxResults < 1 then ⟨.error "max_results must be greater than 0", false⟩
    else ⟨.ok netIds, true⟩

/-- `_make_api_request`'s retry loop, `for attempt in range(max_retries)`:
`responses attempt` is the outcome of the `requests.get` on that attempt,
the second component is the `time.sleep` log.  `fuel` is the number of
remaining attempts. -/
def apiLoop (responses : Nat → Except String Nat) :
    Nat → Nat → Except String Nat × List ℚ
  | 0, _ => (.error "", [])
  | fuel + 1, attempt =>
    match responses attempt with
    | .ok r => (.ok r, [])
    | .error e =>
      if fuel = 0 then (.error ("Failed after 3 attempts: " ++ e), [])
      else
        let next := apiLoop responses fuel (attempt + 1)
        (next.1, ((2 : ℚ) ^ attempt) :: next.2)

/-- `ResearchPaperFinder._make_api_request` (`max_retries = 3`). -/
def make_api_request (responses : Nat → Except String Nat) :
    Except String Nat × List ℚ :=
  apiLoop responses 3 0

/-- `ResearchPaperFinder.run` (output sink abstracted away; `netIds` and
`net` abstract the two remote interfaces). -/
def run (query : String) (maxResults : Int) (netIds : List String)
    (net : List String → BatchOutcome) : Except String (List PaperRow) :=
  match (search_papers query maxResults netIds).result with
  | .error e => .error e
  | .ok pmids =>
    if pmids = [] then .ok []
    else .ok (filter_papers_with_pharma_biotech_affiliations
      (fetch_paper_details pmids net).papers)

/-! ## Spec-side helper definitions (used to state the claims) -/

/-- The (name, affiliations) pairs of the authors actually processed by the
author loop (those whose computed name is truthy), in document order. -/
def processedAuthors (article : Xml) : List (String × List String) :=
  (authorElems article).filterMap (fun a =>
    if pyTruthy (authorNameVal a) then
      some (pyStr (authorNameVal a), authorAffiliations a)
    else none)

/-- Parsed (pre-dict) records produced by the fetch loop, in order. -/
def fetchParsedGo (net : List String → BatchOutcome) :
    List (List String) → List ParsedArticle
  | [] => []
  | b :: bs =>
    (match net b with
     | .ok arts => arts.filterMap parseArticle
     | .transportErr => []
     | .xmlErr => []) ++ fetchParsedGo net bs

def fetchParsed (pmids : List String) (net : List String → BatchOutcome) :
    List ParsedArticle :=
  if pmids = [] then [] else fetchParsedGo net (chunks100 pmids)

/-- Whether the `month` value survives to `int(day)` without raising:
non-`None`, and either an alphabetic resolvable month abbreviation or an
`int()`-parseable string. -/
def monthResolves (m : Option (Option String)) : Bool :=
  match dateMonthVal m with
  | none => false
  | some ms => if pyIsAlpha ms then (monthAbbrevNum ms).isSome else (pyInt ms).isSome

/-- The email the author loop would contribute for one author element. -/
def authorEmailCandidate (a : Xml) : Option String :=
  if pyTruthy (authorNameVal a) then (authorAffiliations a).findSome? emailSearch
  else none

/-- A concrete record used as witness input for the email claim: one author
whose affiliation embeds an email address. -/
def artC8 : Xml := .mk "PubmedArticle" none [
  .mk "PMID" (some "7") [],
  .mk "ArticleTitle" (some "T") [],
  .mk "AuthorList" none [
    .mk "Author" none [
      .mk "LastName" (some "Doe") [],
      .mk "AffiliationInfo" none [
        .mk "Affiliation" (some "Acme Pharma, NY. doe@acme.com") []]]]]

/-- A concrete record whose single author has a non-academic affiliation on
which company-name extraction fails: the affiliation is a 52-character
comma-free lower-case string containing the keyword `pfizer`. -/
def artC10 : Xml := .mk "PubmedArticle" none [
  .mk "PMID" (some "9") [],
  .mk "ArticleTitle" (some "T") [],
  .mk "AuthorList" none [
    .mk "Author" none [
      .mk "LastName" (some "Smith") [],
      .mk "AffiliationInfo" none [
        .mk "Affiliation"
          (some "pfizer xxxxxxxxxxxxxxxxxxxxxxxxxxxxxxxxxxxxxxxxxxxxx") []]]]]

/-- The record `parseArticle artC8` produces. -/
def pC8 : ParsedArticle :=
  { pmid := some "7", title := some "T", pubDate := "N/A",
    authors := ["Doe"],
    affiliations := ["Acme Pharma, NY. doe@acme.com"],
    nonAcademicAuthors := ["Doe"],
    companyAffiliations := ["Acme Pharma"],
    correspondingEmail := "doe@acme.com" }

/-- The record `parseArticle artC10` produces. -/
def pC10 : ParsedArticle :=
  { pmid := some "9", title := some "T", pubDate := "N/A",
    authors := ["Smith"],
    affiliations := ["pfizer xxxxxxxxxxxxxxxxxxxxxxxxxxxxxxxxxxxxxxxxxxxxx"],
    nonAcademicAuthors := ["Smith"],
    companyAffiliations := [],
    correspondingEmail := "N/A" }

/-- The author-loop state of `parse_pubmed_article` on one record. -/
def articleState (article : Xml) : ParseState :=
  (authorElems article).foldl processAuthor ⟨[], [], [], [], "N/A"⟩

/-- The corresponding-email policy as the spec states it: the first pattern
match scanning the processed authors' affiliations in document order; only if
none exists, the first pattern match over every text-bearing descendant node;
else the sentinel. -/
def emailSpec (article : Xml) : String :=
  match ((processedAuthors article).flatMap Prod.snd).findSome? emailSearch with
  | some e => e
  | none =>
    match article.descendants.findSome? (fun el => el.text.bind emailSearch) with
    | some e => e
    | none => "N/A"

end RPF

namespace RPF

/-- **C1.** For every affiliation string: empty input gives `false`; any
`ACADEMIC_KEYWORDS` substring of the lower-cased text forces `false` even when
industry terms co-occur; otherwise the result is `true` iff some
`PHARMA_BIOTECH_KEYWORDS` entry occurs in the lower-cased text. -/
theorem C1_is_non_academic_characterization (s : String) :
    (s = "" → is_non_academic_affiliation s = false) ∧
    (ACADEMIC_KEYWORDS.any (fun k => strContains (pyLower s) k) = true →
      is_non_academic_affiliation s = false) ∧
    (s ≠ "" → ACADEMIC_KEYWORDS.any (fun k => strContains (pyLower s) k) = false →
      (is_non_academic_affiliation s = true ↔
        PHARMA_BIOTECH_KEYWORDS.any (fun k => strContains (pyLower s) k) = true)) := by
  refine ⟨fun h => by simp [is_non_academic_affiliation, h], fun h => ?_, fun h1 h2 => ?_⟩
  · unfold is_non_academic_affiliation
    by_cases he : s = "" <;> simp [he, h]
  · unfold is_non_academic_affiliation
    simp [h1, h2]

/-- Witness for C1 at concrete inputs: "Pfizer University Inc." contains an
academic term and is classified academic despite industry terms; the empty
string is classified academic. -/
theorem C1_witness :
    is_non_academic_affiliation "Pfizer University Inc." = false ∧
    is_non_academic_affiliation "" = false := by
  constructor
  · exact (C1_is_non_academic_characterization "Pfizer University Inc.").2.1 (by decide)
  · exact (C1_is_non_academic_characterization "").1 rfl

/-! ### C6: query validation -/

/-- Explicit case analysis of `search_papers`. -/
theorem search_papers_eq (query : String) (maxResults : Int)
    (netIds : List String) :
    search_papers query maxResults netIds =
      if pyStrip query = "" then ⟨.error "Search query cannot be empty", false⟩
      else if query.length > 1000 then
        ⟨.error "Search query is too long (max 1000 characters)", false⟩
      else if maxResults < 1 then
        ⟨.error "max_results must be greater than 0", false⟩
      else ⟨.ok netIds, true⟩ := by
  have hempty : query = "" → pyStrip query = "" := by
    intro h; subst h; rfl
  unfold search_papers validate_query
  by_cases h2 : pyStrip query = ""
  · simp [h2]
  · have h1 : ¬ query = "" := fun h => h2 (hempty h)
    simp only [h1, h2, decide_False, Bool.false_or, if_false, if_neg]
    by_cases h3 : query.length > 1000 <;> simp [h3]

/-- **C6.** `search_papers` fails with a `ValidationError` iff the query is
empty after trimming, longer than 1000 characters, or `max_results < 1`; a
validation failure happens before any network request; on valid input the
(possibly empty) identifier list from the network is returned. -/
theorem C6_search_validation (query : String) (maxResults : Int)
    (netIds : List String) :
    ((∃ e, (search_papers query maxResults netIds).result = .error e) ↔
      (pyStrip query = "" ∨ query.length > 1000 ∨ maxResults < 1)) ∧
    ((∃ e, (search_papers query maxResults netIds).result = .error e) →
      (search_papers query maxResults netIds).networkCalled = false) ∧
    (¬(pyStrip query = "" ∨ query.length > 1000 ∨ maxResults < 1) →
      (search_papers query maxResults netIds).result = .ok netIds ∧
      (search_papers query maxResults netIds).networkCalled = true) := by
  rw [search_papers_eq]
  by_cases h1 : pyStrip query = "" <;> by_cases h2 : query.length > 1000 <;>
    by_cases h3 : maxResults < 1 <;> simp [h1, h2, h3]

/-- Witness for C6: the all-blank query `"   "` trims to empty and is
rejected with no network call. -/
theorem C6_witness :
    (search_papers "   " 10 ["x"]).networkCalled = false :=
  (C6_search_validation "   " 10 ["x"]).2.1 ⟨"Search query cannot be empty", rfl⟩

/-! ### Shared lemmas about the fetch loop -/

theorem fetchGo_calls (net : List String → BatchOutcome) (bs : List (List String)) :
    (fetchGo net bs).calls = bs.length := by
  induction bs with
  | nil => rfl
  | cons b bs ih =>
    unfold fetchGo
    cases net b <;> simp [ih]

theorem chunksGo_len : ∀ (n : Nat) (l : List String), l.length ≤ n →
    (chunksGo n l).length = (l.length + 99) / 100
  | n, [], _ => by cases n <;> simp [chunksGo]
  | 0, a :: l, h => by simp at h
  | n + 1, a :: l, h => by
    rw [chunksGo]
    have hd : (List.drop 100 (a :: l)).length ≤ n := by
      simp only [List.length_drop, List.length_cons] at *
      omega
    rw [List.length_cons, chunksGo_len n _ hd]
    simp only [List.length_drop, List.length_cons]
    omega

theorem chunks100_len (l : List String) :
    (chunks100 l).length = (l.length + 99) / 100 :=
  chunksGo_len l.length l le_rfl

theorem fetch_calls (pmids : List String) (net : List String → BatchOutcome) :
    (fetch_paper_details pmids net).calls = (pmids.length + 99) / 100 := by
  unfold fetch_paper_details
  by_cases h : pmids = []
  · subst h; simp [fetchGo, chunks100, chunksGo]
  · simp only [h, if_false]
    rw [fetchGo_calls, chunks100_len]

theorem chunksGo_flatten : ∀ (n : Nat) (l : List String), l.length ≤ n →
    (chunksGo n l).flatten = l
  | n, [], _ => by cases n <;> simp [chunksGo]
  | 0, a :: l, h => by simp at h
  | n + 1, a :: l, h => by
    rw [chunksGo]
    have hd : (List.drop 100 (a :: l)).length ≤ n := by
      simp only [List.length_drop, List.length_cons] at *
      omega
    rw [List.flatten_cons, chunksGo_flatten n _ hd, List.take_append_drop]

theorem chunksGo_mem : ∀ (n : Nat) (l : List String), l.length ≤ n →
    ∀ b ∈ chunksGo n l, b.length ≤ 100 ∧ b ≠ []
  | n, [], _ => by cases n <;> simp [chunksGo]
  | 0, a :: l, h => by simp at h
  | n + 1, a :: l, h => by
    rw [chunksGo]
    intro b hb
    rcases List.mem_cons.mp hb with hb | hb
    · subst hb
      exact ⟨by simp, by simp⟩
    · have hd : (List.drop 100 (a :: l)).length ≤ n := by
        simp only [List.length_drop, List.length_cons] at *
        omega
      exact chunksGo_mem n _ hd b hb

theorem fetchGo_sleeps_all_ok (net : List String → BatchOutcome)
    (bs : List (List String)) (h : ∀ b ∈ bs, ∃ arts, net b = .ok arts) :
    (fetchGo net bs).sleeps = List.replicate bs.length (1 / 2 : ℚ) := by
  induction bs with
  | nil => rfl
  | cons b bs ih =>
    obtain ⟨arts, ha⟩ := h b (List.mem_cons_self b bs)
    unfold fetchGo
    rw [ha]
    simp [ih (fun x hx => h x (List.mem_cons_of_mem b hx)), List.replicate_succ]

/-! ### C3: retry policy -/

/-- **C3 counterexample.**  The claim asserts every transport-failing remote
call is retried up to 3 attempts with sleeps 1, 2, 4 between attempts, in
particular each batch's detail-fetch call.  In the code (a) the retrying
helper sleeps only 1 and 2 (two gaps between three attempts, never 4), and
(b) a batch detail-fetch call that fails at the transport layer is issued
exactly once — not three times — and surfaces no `APIError`. -/
theorem C3_counterexample :
    (make_api_request (fun _ => .error "transport failure")).2 = [1, 2] ∧
    ([1, 2] : List ℚ) ≠ [1, 2, 4] ∧
    (fetch_paper_details ["1"] (fun _ => .transportErr)).calls = 1 ∧
    (1 : Nat) ≠ 3 := by
  refine ⟨?_, by decide, ?_, by decide⟩
  · show ((2:ℚ)^0 :: (2:ℚ)^1 :: []) = [1, 2]
    norm_num
  · simp [fetch_paper_details, fetchGo, chunks100, chunksGo]

/-- **C3 amended.**  Calls issued through `_make_api_request` (the search
call) are attempted up to 3 times, sleeping `2^attempt` = 1 then 2 time
units between attempts, and after the third transport failure an `APIError`
carrying the last failure's detail is raised.  Each batch's detail-fetch
call, by contrast, is issued exactly once — batches are never retried, so
the total number of detail calls equals the number of batches even when
calls fail. -/
theorem C3_retry_policy (responses : Nat → Except String Nat)
    (r : Nat) (e0 e1 e2 : String) :
    (responses 0 = .ok r → make_api_request responses = (.ok r, [])) ∧
    (responses 0 = .error e0 → responses 1 = .ok r →
      make_api_request responses = (.ok r, [1])) ∧
    (responses 0 = .error e0 → responses 1 = .error e1 → responses 2 = .ok r →
      make_api_request responses = (.ok r, [1, 2])) ∧
    (responses 0 = .error e0 → responses 1 = .error e1 → responses 2 = .error e2 →
      make_api_request responses =
        (.error ("Failed after 3 attempts: " ++ e2), [1, 2])) ∧
    (∀ pmids net, (fetch_paper_details pmids net).calls =
      (chunks100 pmids).length) := by
  refine ⟨?_, ?_, ?_, ?_, ?_⟩
  · intro h0
    simp [make_api_request, apiLoop, h0]
  · intro h0 h1
    simp [make_api_request, apiLoop, h0, h1]
  · intro h0 h1 h2
    simp [make_api_request, apiLoop, h0, h1, h2]
  · intro h0 h1 h2
    simp [make_api_request, apiLoop, h0, h1, h2]
  · intro pmids net
    unfold fetch_paper_details
    by_cases h : pmids = []
    · subst h; simp [fetchGo, chunks100, chunksGo]
    · simp only [h, if_false]
      exact fetchGo_calls net (chunks100 pmids)

/-- Witness for C3 (amended): all three attempts fail. -/
theorem C3_retry_policy_witness :
    make_api_request (fun _ => .error "boom") =
      (.error ("Failed after 3 attempts: " ++ "boom"), [1, 2]) :=
  (C3_retry_policy (fun _ => .error "boom") 0 "boom" "boom" "boom").2.2.2.1
    rfl rfl rfl

/-! ### C7: batching -/

/-- **C7 counterexample.**  The claim asserts an unconditional 0.5-unit pause
after each batch; in the code the pause is inside the `try` block, so a batch
whose fetch fails at the transport layer produces no pause (while the call is
still issued). -/
theorem C7_counterexample :
    (fetch_paper_details ["1"] (fun _ => .transportErr)).sleeps = [] ∧
    ([] : List ℚ) ≠ [1 / 2] ∧
    (fetch_paper_details ["1"] (fun _ => .transportErr)).calls = 1 := by
  refine ⟨?_, ?_, ?_⟩ <;>
    simp [fetch_paper_details, fetchGo, chunks100, chunksGo]

/-- **C7 amended.**  For every list of N identifiers, `fetch_paper_details`
partitions it into consecutive batches of at most 100 (all non-empty, whose
concatenation is the input) and issues exactly `⌈N/100⌉` remote detail calls
(zero for an empty list); the 0.5-time-unit pause runs after each batch whose
fetch and parse succeed, in particular once per batch when every batch
succeeds — but is skipped for failed batches. -/
theorem C7_batching (pmids : List String) (net : List String → BatchOutcome) :
    ((fetch_paper_details pmids net).calls = (pmids.length + 99) / 100) ∧
    (pmids = [] → (fetch_paper_details pmids net).calls = 0) ∧
    (∀ b ∈ chunks100 pmids, b.length ≤ 100 ∧ b ≠ []) ∧
    ((chunks100 pmids).flatten = pmids) ∧
    ((∀ b ∈ chunks100 pmids, ∃ arts, net b = .ok arts) →
      (fetch_paper_details pmids net).sleeps =
        List.replicate ((pmids.length + 99) / 100) (1 / 2 : ℚ)) := by
  refine ⟨fetch_calls pmids net, ?_, chunksGo_mem pmids.length pmids le_rfl,
    chunksGo_flatten pmids.length pmids le_rfl, ?_⟩
  · intro h; subst h; simp [fetch_paper_details, fetchGo]
  · intro hok
    unfold fetch_paper_details
    by_cases h : pmids = []
    · subst h; simp [fetchGo, chunks100, chunksGo]
    · simp only [h, if_false]
      rw [fetchGo_sleeps_all_ok net _ hok, chunks100_len]

/-- Witness for C7 (amended): two identifiers, one successful batch. -/
theorem C7_batching_witness :
    (fetch_paper_details ["a", "b"] (fun _ => .ok [])).sleeps =
      List.replicate ((2 + 99) / 100) (1 / 2 : ℚ) :=
  (C7_batching ["a", "b"] (fun _ => .ok [])).2.2.2.2
    (fun _ _ => ⟨[], rfl⟩)

/-! ### C5: publication-date extraction -/

/-- **C5 counterexample.**  The claim says date extraction never throws for
any combination of year/month/day sub-fields.  But with year `"2021"`, month
absent (defaulting to `"01"`), and a `Day` element present with empty text
(Python `None`), the f-string reaches `int(None)`, raising a `TypeError`
that the date block's `except (ValueError, AttributeError)` does not catch:
the record is dropped by the function-level handler instead of degrading. -/
theorem C5_counterexample :
    parse_pub_date (some (some "2021")) none (some none) = .exn ∧
    ∀ s, (PyResult.exn : PyResult String) ≠ .ok s := by
  exact ⟨rfl, fun s h => by cases h⟩

/-- **C5 amended.**  Date extraction throws (an uncaught `TypeError`) exactly
when the year is truthy, the month value resolves to an int, and the `Day`
element is present with absent text; in every other combination it never
throws: absent month/day default to "01", a 3-letter month name resolves
case-insensitively, an unresolvable alphabetic month name degrades to the
year, and an absent/empty year yields "N/A". -/
theorem C5_date_extraction (y m d : Option (Option String)) :
    (parse_pub_date y m d = .exn ↔
      (pyTruthy (dateYearVal y) = true ∧ monthResolves m = true ∧
        d = some none)) ∧
    (pyTruthy (dateYearVal y) = false → parse_pub_date y m d = .ok "N/A") ∧
    (∀ ys, ys ≠ "" → parse_pub_date (some (some ys)) none none =
      .ok (ys ++ "-01-01")) ∧
    (∀ ys ms n, ys ≠ "" → pyIsAlpha ms = true → monthAbbrevNum ms = some n →
      parse_pub_date (some (some ys)) (some (some ms)) none =
        .ok (ys ++ "-" ++ pad2 n ++ "-01")) ∧
    (∀ ys ms, ys ≠ "" → pyIsAlpha ms = true → monthAbbrevNum ms = none →
      parse_pub_date (some (some ys)) (some (some ms)) none = .ok ys) := by
  have h01 : pyInt "01" = some 1 := by decide
  refine ⟨?_, ?_, ?_, ?_, ?_⟩
  · unfold parse_pub_date monthResolves
    cases hm : dateMonthVal m with
    | none => simp
    | some ms =>
      by_cases hy : pyTruthy (dateYearVal y) = true
      · simp only [hy, if_true]
        by_cases ha : pyIsAlpha ms = true
        · simp only [ha, if_true]
          cases hres : monthAbbrevNum ms with
          | none => simp [hres]
          | some mi =>
            cases d with
            | none => simp [dateDayVal, h01]
            | some dt =>
              cases dt with
              | none => simp [dateDayVal]
              | some ds =>
                cases hpi : pyInt ds <;> simp [dateDayVal, hpi]
        · simp only [Bool.not_eq_true] at ha
          simp only [ha, if_false]
          cases hres : pyInt ms with
          | none => simp [hres]
          | some mi =>
            cases d with
            | none => simp [dateDayVal, h01]
            | some dt =>
              cases dt with
              | none => simp [dateDayVal]
              | some ds =>
                cases hpi : pyInt ds <;> simp [dateDayVal, hpi]
      · simp only [Bool.not_eq_true] at hy
        simp [hy]
  · intro hy
    unfold parse_pub_date
    cases hm : dateMonthVal m with
    | none => simp [hy]
    | some ms => simp [hy]
  · intro ys hys
    have hy : pyTruthy (dateYearVal (some (some ys))) = true := by
      simp [dateYearVal, pyTruthy, hys]
    unfold parse_pub_date
    simp only [hy, if_true]
    show PyResult.ok (ys ++ "-" ++ pad2 1 ++ "-" ++ pad2 1) = .ok (ys ++ "-01-01")
    have : pad2 1 = "01" := rfl
    rw [this]
    congr 1
    apply String.ext
    simp [String.data_append]
  · intro ys ms n hys ha hres
    have hy : pyTruthy (dateYearVal (some (some ys))) = true := by
      simp [dateYearVal, pyTruthy, hys]
    unfold parse_pub_date
    simp only [dateMonthVal, hy, if_true, ha, hres, dateDayVal]
    show PyResult.ok (pyStr (dateYearVal (some (some ys))) ++ "-" ++ pad2 n ++ "-" ++ pad2 1) = _
    have : pad2 1 = "01" := rfl
    rw [this]
    show PyResult.ok (ys ++ "-" ++ pad2 n ++ "-" ++ "01") = _
    congr 1
    apply String.ext
    simp [String.data_append]
  · intro ys ms hys ha hres
    have hy : pyTruthy (some ys) = true := by simp [pyTruthy, hys]
    unfold parse_pub_date
    simp [dateMonthVal, dateYearVal, hy, ha, hres, pyStr]

/-- Witness for C5 (amended): the spec's two scenarios, year `"2021"` with
month `"Jan"` and day absent, and year absent. -/
theorem C5_witness :
    parse_pub_date (some (some "2021")) (some (some "Jan")) none =
      .ok ("2021" ++ "-" ++ pad2 1 ++ "-01") ∧
    parse_pub_date none none none = .ok "N/A" := by
  constructor
  · exact (C5_date_extraction (some (some "2021")) (some (some "Jan"))
      none).2.2.2.1 "2021" "Jan" 1 (by decide) (by decide) (by decide)
  · exact (C5_date_extraction none none none).2.1 (by decide)

/-! ### C4: company-name extraction -/

/-- **C4.** `extract_company_name` returns `none` on empty input; otherwise
it tries pattern 1 (legal-entity suffixes) then pattern 2 (pharma/biotech
domain words) against the original-case text, returning the first match
trimmed; if neither matches, it falls back to the first comma-segment
(trimmed, < 50 chars) whose lower-cased form contains an industry keyword,
else `none`.  On `"Pfizer Inc., New York, NY"`, `is_non_academic_affiliation`
is `true` and the extracted name is `"Pfizer Inc."`. -/
theorem C4_extract_characterization :
    (extract_company_name "" = none) ∧
    (∀ s m, reSearch pat1Alts s.data = some m →
      extract_company_name s = some (pyStrip (String.mk m))) ∧
    (∀ s m, reSearch pat1Alts s.data = none →
      reSearch pat2Alts s.data = some m →
      extract_company_name s = some (pyStrip (String.mk m))) ∧
    (∀ s, s ≠ "" → reSearch pat1Alts s.data = none →
      reSearch pat2Alts s.data = none →
      extract_company_name s = fallbackSegment (splitOnComma s.data)) ∧
    (is_non_academic_affiliation "Pfizer Inc., New York, NY" = true ∧
     extract_company_name "Pfizer Inc., New York, NY" = some "Pfizer Inc.") := by
  refine ⟨rfl, ?_, ?_, ?_, by decide, by decide⟩
  · intro s m h
    have hs : s ≠ "" := by
      intro he; subst he; simp [reSearch] at h
    unfold extract_company_name
    simp [hs, h]
  · intro s m h1 h2
    have hs : s ≠ "" := by
      intro he; subst he; simp [reSearch] at h2
    unfold extract_company_name
    simp [hs, h1, h2]
  · intro s hs h1 h2
    unfold extract_company_name
    simp [hs, h1, h2]

/-- Witness for C4: the suffix pattern matches `"Pfizer Inc., New York, NY"`
at `"Pfizer Inc."`. -/
theorem C4_witness :
    extract_company_name "Pfizer Inc., New York, NY" =
      some (pyStrip (String.mk "Pfizer Inc.".data)) :=
  C4_extract_characterization.2.1 "Pfizer Inc., New York, NY"
    "Pfizer Inc.".data (by decide)

/-! ### Structural lemmas about the embedded matchers -/

theorem findSome?_some {α β : Type} {l : List α} {f : α → Option β} {r : β}
    (h : l.findSome? f = some r) : ∃ x ∈ l, f x = some r := by
  induction l with
  | nil => simp [List.findSome?] at h
  | cons a l ih =>
    rw [List.findSome?_cons] at h
    cases hf : f a with
    | some b => rw [hf] at h; exact ⟨a, List.mem_cons_self a l, hf.trans h⟩
    | none =>
      rw [hf] at h
      obtain ⟨x, hx, hfx⟩ := ih h
      exact ⟨x, List.mem_cons_of_mem a hx, hfx⟩

theorem firstAlt_some {alts : List (List Char)} {rem a : List Char}
    (h : firstAlt alts rem = some a) :
    a ∈ alts ∧ a.isPrefixOf rem = true := by
  unfold firstAlt at h
  have h1 := List.mem_of_find?_eq_some h
  have h2 := List.find?_some h
  exact ⟨h1, h2⟩

theorem tryBody_some {alts : List (List Char)} {rest t : List Char} :
    ∀ {k : Nat}, tryBody alts rest k = some t →
    ∃ j a, 1 ≤ j ∧ j ≤ k ∧ a ∈ alts ∧ a.isPrefixOf (rest.drop j) = true ∧
      firstAlt alts (rest.drop j) = some a ∧ t = rest.take j ++ a := by
  intro k
  induction k with
  | zero => intro h; simp [tryBody] at h
  | succ k ih =>
    intro h
    rw [tryBody] at h
    cases hfa : firstAlt alts (rest.drop (k + 1)) with
    | some alt =>
      rw [hfa] at h
      obtain ⟨hmem, hpre⟩ := firstAlt_some hfa
      exact ⟨k + 1, alt, Nat.succ_le_succ (Nat.zero_le k), le_rfl, hmem, hpre,
        hfa, (Option.some.injEq _ _ ▸ h).symm⟩
    | none =>
      rw [hfa] at h
      obtain ⟨j, a, h1, h2, h3, h4, h5, h6⟩ := ih h
      exact ⟨j, a, h1, Nat.le_succ_of_le h2, h3, h4, h5, h6⟩

theorem tryAt_some {alts : List (List Char)} {cs m : List Char}
    (h : tryAt alts cs = some m) :
    ∃ c rest j a, cs = c :: rest ∧ c.isUpper = true ∧ 1 ≤ j ∧
      j ≤ (rest.takeWhile bodyChar).length ∧ a ∈ alts ∧
      a.isPrefixOf (rest.drop j) = true ∧
      firstAlt alts (rest.drop j) = some a ∧
      m = c :: (rest.take j ++ a) := by
  cases cs with
  | nil => simp [tryAt] at h
  | cons c rest =>
    rw [tryAt] at h
    by_cases hc : c.isUpper = true
    · rw [if_pos hc] at h
      cases ht : tryBody alts rest (rest.takeWhile bodyChar).length with
      | some t =>
        rw [ht] at h
        obtain ⟨j, a, h1, h2, h3, h4, h5, h6⟩ := tryBody_some ht
        exact ⟨c, rest, j, a, rfl, hc, h1, h2, h3, h4, h5, by
          rw [← (Option.some.injEq _ _).mp h, h6]⟩
      | none => rw [ht] at h; cases h
    · rw [if_neg hc] at h; cases h

theorem reSearch_some {alts : List (List Char)} {m : List Char} :
    ∀ {cs : List Char}, reSearch alts cs = some m →
    ∃ i, tryAt alts (cs.drop i) = some m := by
  intro cs
  induction cs with
  | nil => intro h; simp [reSearch] at h
  | cons c rest ih =>
    intro h
    rw [reSearch] at h
    cases ht : tryAt alts (c :: rest) with
    | some t => rw [ht] at h; exact ⟨0, ht.trans (congrArg some (Option.some.injEq _ _ ▸ h))⟩
    | none =>
      rw [ht] at h
      obtain ⟨i, hi⟩ := ih h
      exact ⟨i + 1, hi⟩

theorem mem_take_of_le_takeWhile {p : Char → Bool} :
    ∀ {l : List Char} {j : Nat}, j ≤ (l.takeWhile p).length →
    ∀ x ∈ l.take j, p x = true := by
  intro l
  induction l with
  | nil => intro j _ x hx; simp at hx
  | cons c rest ih =>
    intro j hj x hx
    cases j with
    | zero => simp at hx
    | succ j' =>
      by_cases hp : p c = true
      · rw [List.takeWhile_cons_of_pos hp] at hj
        simp only [List.length_cons, Nat.succ_le_succ_iff] at hj
        rw [List.take_succ_cons] at hx
        rcases List.mem_cons.mp hx with hx | hx
        · subst hx; exact hp
        · exact ih hj x hx
      · rw [List.takeWhile_cons_of_neg hp] at hj
        simp at hj

/-- Every character of a successful pattern match is an upper-case letter, a
body-class character, or a character of one of the alternatives. -/
theorem reSearch_mem_chars {alts : List (List Char)} {cs m : List Char}
    (h : reSearch alts cs = some m) :
    ∀ x ∈ m, x.isUpper = true ∨ bodyChar x = true ∨ ∃ a ∈ alts, x ∈ a := by
  obtain ⟨i, hi⟩ := reSearch_some h
  obtain ⟨c, rest, j, a, _, hc, _, hjtw, hmem, _, _, hm⟩ := tryAt_some hi
  intro x hx
  rw [hm] at hx
  rcases List.mem_cons.mp hx with hx | hx
  · subst hx; exact Or.inl hc
  · rcases List.mem_append.mp hx with hx | hx
    · exact Or.inr (Or.inl (mem_take_of_le_takeWhile hjtw x hx))
    · exact Or.inr (Or.inr ⟨a, hmem, hx⟩)

theorem pyStripL_subset {cs : List Char} : ∀ x ∈ pyStripL cs, x ∈ cs := by
  intro x hx
  unfold pyStripL at hx
  rw [List.mem_reverse] at hx
  have h1 := List.dropWhile_sublist (l := (cs.dropWhile pySpace).reverse) (p := pySpace)
  have hx1 : x ∈ (cs.dropWhile pySpace).reverse := h1.mem hx
  rw [List.mem_reverse] at hx1
  exact (List.dropWhile_sublist (l := cs) (p := pySpace)).mem hx1

/-- `extract_company_name` never returns the sentinel `"N/A"`. -/
theorem extract_ne_NA {s r : String}
    (h : extract_company_name s = some r) : r ≠ "N/A" := by
  intro hNA
  subst hNA
  unfold extract_company_name at h
  by_cases hs : s = ""
  · simp [hs] at h
  · rw [if_neg hs] at h
    have slash_mem : ('/' : Char) ∈ pyStripL ("N/A".data) := by decide
    cases h1 : reSearch pat1Alts s.data with
    | some m =>
      rw [h1] at h
      have hdata : pyStripL m = "N/A".data := by
        have := (Option.some.injEq _ _).mp h
        exact congrArg String.data this
      have hmem0 : ('/' : Char) ∈ pyStripL m := by rw [hdata]; exact slash_mem
      have hmem : ('/' : Char) ∈ m := pyStripL_subset '/' hmem0
      rcases reSearch_mem_chars h1 '/' hmem with hu | hb | ⟨a, ha, hxa⟩
      · simp at hu
      · simp [bodyChar, pySpace] at hb
      · fin_cases ha <;> simp_all
    | none =>
      rw [h1] at h
      cases h2 : reSearch pat2Alts s.data with
      | some m =>
        rw [h2] at h
        have hdata : pyStripL m = "N/A".data := by
          have := (Option.some.injEq _ _).mp h
          exact congrArg String.data this
        have hmem0 : ('/' : Char) ∈ pyStripL m := by rw [hdata]; exact slash_mem
        have hmem : ('/' : Char) ∈ m := pyStripL_subset '/' hmem0
        rcases reSearch_mem_chars h2 '/' hmem with hu | hb | ⟨a, ha, hxa⟩
        · simp at hu
        · simp [bodyChar, pySpace] at hb
        · fin_cases ha <;> simp_all
      | none =>
        rw [h2] at h
        obtain ⟨part, _, hpart⟩ := findSome?_some h
        by_cases hc : PHARMA_BIOTECH_KEYWORDS.any
            (fun kw => strContains (pyLower (String.mk (pyStripL part))) kw &&
              decide ((String.mk (pyStripL part)).length < 50)) = true
        · simp only [fallbackSegment] at hpart
          rw [if_pos hc] at hpart
          have hEq : String.mk (pyStripL part) = "N/A" :=
            (Option.some.injEq _ _).mp hpart
          rw [hEq] at hc
          revert hc
          decide
        · simp only [fallbackSegment] at hpart
          rw [if_neg hc] at hpart
          cases hpart

/-! ### Fold lemmas about the author loop -/

theorem processAffiliation_preserve (acc : ParseState × Bool) (aff : String) :
    (processAffiliation acc aff).1.correspondingEmail =
      acc.1.correspondingEmail ∧
    (processAffiliation acc aff).1.nonAcademicAuthors =
      acc.1.nonAcademicAuthors ∧
    (processAffiliation acc aff).1.authors = acc.1.authors := by
  unfold processAffiliation
  by_cases hna : is_non_academic_affiliation aff = true
  · rw [if_pos hna]
    cases extract_company_name aff with
    | some cn => exact ⟨rfl, rfl, rfl⟩
    | none => exact ⟨rfl, rfl, rfl⟩
  · rw [if_neg hna]
    exact ⟨rfl, rfl, rfl⟩

theorem processAffiliation_flag (acc : ParseState × Bool) (aff : String) :
    (processAffiliation acc aff).2 =
      (acc.2 || is_non_academic_affiliation aff) := by
  unfold processAffiliation
  by_cases hna : is_non_academic_affiliation aff = true
  · rw [if_pos hna]
    cases extract_company_name aff with
    | some cn => simp [hna]
    | none => simp [hna]
  · rw [if_neg hna]
    simp only [Bool.not_eq_true] at hna
    simp [hna]

theorem processAffiliation_company (acc : ParseState × Bool) (aff : String)
    (P : String → Prop)
    (hacc : ∀ x ∈ acc.1.companyAffiliations, P x)
    (hex : ∀ cn, extract_company_name aff = some cn → P cn) :
    ∀ x ∈ (processAffiliation acc aff).1.companyAffiliations, P x := by
  unfold processAffiliation
  by_cases hna : is_non_academic_affiliation aff = true
  · rw [if_pos hna]
    cases hcn : extract_company_name aff with
    | some cn =>
      intro x hx
      dsimp only at hx
      unfold setAdd at hx
      by_cases hmem : cn ∈ acc.1.companyAffiliations
      · rw [if_pos hmem] at hx; exact hacc x hx
      · rw [if_neg hmem] at hx
        rcases List.mem_append.mp hx with hx | hx
        · exact hacc x hx
        · rw [List.mem_singleton.mp hx]
          exact hex cn hcn
    | none => exact hacc
  · rw [if_neg hna]
    exact hacc

theorem affilFold_preserve (affs : List String) :
    ∀ acc : ParseState × Bool,
    (affs.foldl processAffiliation acc).1.correspondingEmail =
      acc.1.correspondingEmail ∧
    (affs.foldl processAffiliation acc).1.nonAcademicAuthors =
      acc.1.nonAcademicAuthors ∧
    (affs.foldl processAffiliation acc).1.authors = acc.1.authors := by
  induction affs with
  | nil => exact fun acc => ⟨rfl, rfl, rfl⟩
  | cons a affs ih =>
    intro acc
    rw [List.foldl_cons]
    obtain ⟨h1, h2, h3⟩ := ih (processAffiliation acc a)
    obtain ⟨g1, g2, g3⟩ := processAffiliation_preserve acc a
    exact ⟨h1.trans g1, h2.trans g2, h3.trans g3⟩

theorem affilFold_flag (affs : List String) :
    ∀ acc : ParseState × Bool,
    (affs.foldl processAffiliation acc).2 =
      (acc.2 || affs.any is_non_academic_affiliation) := by
  induction affs with
  | nil => simp
  | cons a affs ih =>
    intro acc
    rw [List.foldl_cons, ih, processAffiliation_flag]
    simp [Bool.or_assoc]

theorem affilFold_company_inv (affs : List String)
    (P : String → Prop)
    (hex : ∀ aff cn, extract_company_name aff = some cn → P cn) :
    ∀ acc : ParseState × Bool, (∀ x ∈ acc.1.companyAffiliations, P x) →
    ∀ x ∈ (affs.foldl processAffiliation acc).1.companyAffiliations, P x := by
  induction affs with
  | nil => exact fun acc hacc => hacc
  | cons a affs ih =>
    intro acc hacc
    rw [List.foldl_cons]
    exact ih _ (processAffiliation_company acc a P hacc (fun cn => hex a cn))

theorem affilFold_company_nil (affs : List String) (st : ParseState) (b : Bool)
    (h : affs = []) :
    (affs.foldl processAffiliation (st, b)).1.companyAffiliations =
      st.companyAffiliations := by
  subst h; rfl

/-- `processAuthor` leaves `companyAffiliations` invariant under a predicate
preserved by `extract_company_name` outputs. -/
theorem processAuthor_company_inv (a : Xml) (st : ParseState)
    (P : String → Prop)
    (hst : ∀ x ∈ st.companyAffiliations, P x)
    (hex : ∀ aff cn, extract_company_name aff = some cn → P cn) :
    ∀ x ∈ (processAuthor st a).companyAffiliations, P x := by
  unfold processAuthor
  by_cases ht : pyTruthy (authorNameVal a) = true
  · rw [if_pos ht]
    dsimp only
    have hinv := affilFold_company_inv (authorAffiliations a) P hex
      ({ st with authors := st.authors ++ [pyStr (authorNameVal a)] }, false) hst
    set stp := (authorAffiliations a).foldl processAffiliation
      ({ st with authors := st.authors ++ [pyStr (authorNameVal a)] }, false) with hstp
    by_cases hf : stp.2 = true
    · rw [if_pos hf]
      by_cases he : ({ stp.1 with nonAcademicAuthors :=
          stp.1.nonAcademicAuthors ++ [pyStr (authorNameVal a)] } :
            ParseState).correspondingEmail = "N/A"
      · rw [if_pos he]
        cases (authorAffiliations a).findSome? emailSearch with
        | some e => exact hinv
        | none => exact hinv
      · rw [if_neg he]; exact hinv
    · rw [if_neg hf]
      by_cases he : stp.1.correspondingEmail = "N/A"
      · rw [if_pos he]
        cases (authorAffiliations a).findSome? emailSearch with
        | some e => exact hinv
        | none => exact hinv
      · rw [if_neg he]; exact hinv
  · rw [if_neg ht]
    exact hst

theorem authorFold_company_inv (as : List Xml) (st : ParseState)
    (P : String → Prop)
    (hst : ∀ x ∈ st.companyAffiliations, P x)
    (hex : ∀ aff cn, extract_company_name aff = some cn → P cn) :
    ∀ x ∈ (as.foldl processAuthor st).companyAffiliations, P x := by
  induction as generalizing st with
  | nil => exact hst
  | cons a as ih =>
    rw [List.foldl_cons]
    exact ih _ (processAuthor_company_inv a st P hst hex)

/-! ### Lemmas about the email scan -/

theorem emailTryAt_at {cs m : List Char} (h : emailTryAt cs = some m) :
    ('@' : Char) ∈ m ∧ ('@' : Char) ∈ cs := by
  unfold emailTryAt at h
  by_cases h1 : (cs.takeWhile emailLocalChar).length = 0
  · rw [if_pos h1] at h; cases h
  · rw [if_neg h1] at h
    cases hd : cs.drop (cs.takeWhile emailLocalChar).length with
    | nil => rw [hd] at h; cases h
    | cons c rest2 =>
      rw [hd] at h
      dsimp only at h
      by_cases hc : c = '@'
      · rw [if_pos hc] at h
        subst hc
        have hcs : ('@' : Char) ∈ cs := by
          have hmem : ('@' : Char) ∈ cs.drop (cs.takeWhile emailLocalChar).length := by
            rw [hd]; exact List.mem_cons_self _ _
          exact (List.drop_sublist _ cs).mem hmem
        by_cases h2 : (rest2.takeWhile emailDom1Char).length = 0
        · rw [if_pos h2] at h; cases h
        · rw [if_neg h2] at h
          cases hd2 : rest2.drop (rest2.takeWhile emailDom1Char).length with
          | nil => rw [hd2] at h; cases h
          | cons c2 rest3 =>
            rw [hd2] at h
            dsimp only at h
            by_cases hc2 : c2 = '.'
            · rw [if_pos hc2] at h
              by_cases h3 : (rest3.takeWhile emailDom2Char).length = 0
              · rw [if_pos h3] at h; cases h
              · rw [if_neg h3] at h
                refine ⟨?_, hcs⟩
                rw [← (Option.some.injEq _ _).mp h]
                exact List.mem_append_left _
                  (List.mem_append_right _ (List.mem_cons_self _ _))
            · rw [if_neg hc2] at h; cases h
      · rw [if_neg hc] at h; cases h

theorem emailSearchL_at {m : List Char} :
    ∀ {cs : List Char}, emailSearchL cs = some m →
    ('@' : Char) ∈ m ∧ ('@' : Char) ∈ cs := by
  intro cs
  induction cs with
  | nil => intro h; simp [emailSearchL] at h
  | cons c rest ih =>
    intro h
    rw [emailSearchL] at h
    cases ht : emailTryAt (c :: rest) with
    | some t =>
      rw [ht] at h
      obtain ⟨h1, h2⟩ := emailTryAt_at ht
      exact ⟨(Option.some.injEq _ _).mp h ▸ h1, h2⟩
    | none =>
      rw [ht] at h
      obtain ⟨h1, h2⟩ := ih h
      exact ⟨h1, List.mem_cons_of_mem c h2⟩

theorem emailSearch_at {t e : String} (h : emailSearch t = some e) :
    ('@' : Char) ∈ e.data ∧ ('@' : Char) ∈ t.data := by
  unfold emailSearch at h
  cases hl : emailSearchL t.data with
  | none => rw [hl] at h; cases h
  | some m =>
    rw [hl] at h
    obtain ⟨h1, h2⟩ := emailSearchL_at hl
    have : e = String.mk m := ((Option.some.injEq _ _).mp h).symm
    exact ⟨by rw [this]; exact h1, h2⟩

theorem emailSearch_ne_NA {t e : String} (h : emailSearch t = some e) :
    e ≠ "N/A" := by
  intro hNA
  subst hNA
  have := (emailSearch_at h).1
  revert this
  decide

theorem containsSub_singleton (c : Char) :
    ∀ cs : List Char, containsSub cs [c] = true ↔ c ∈ cs := by
  intro cs
  induction cs with
  | nil => simp [containsSub, List.isEmpty]
  | cons x rest ih =>
    rw [containsSub]
    simp only [Bool.or_eq_true, List.mem_cons]
    constructor
    · rintro (h | h)
      · left
        simp [List.isPrefixOf] at h
        exact h
      · exact Or.inr (ih.mp h)
    · rintro (h | h)
      · left; simp [List.isPrefixOf, h]
      · exact Or.inr (ih.mpr h)

/-- The code's per-node fallback test (`elem.text and '@' in elem.text` then
regex) agrees with directly searching the node text for the pattern. -/
theorem emailNode_eq (el : Xml) :
    (match el.text with
     | some t => if t ≠ "" && strContains t "@" then emailSearch t else none
     | none => none) = el.text.bind emailSearch := by
  cases htext : el.text with
  | none => rfl
  | some t =>
    simp only [Option.bind]
    by_cases hc : (t ≠ "" && strContains t "@") = true
    · rw [if_pos hc]
    · rw [if_neg hc]
      cases he : emailSearch t with
      | none => rfl
      | some e =>
        exfalso
        apply hc
        obtain ⟨_, hat⟩ := emailSearch_at he
        have ht : t ≠ "" := by
          intro h0
          rw [h0] at hat
          simp at hat
        have hcontains : strContains t "@" = true := by
          unfold strContains
          exact (containsSub_singleton '@' t.data).mpr hat
        simp [ht, hcontains]

theorem authorEmailCandidate_ne_NA {a : Xml} {e : String}
    (h : authorEmailCandidate a = some e) : e ≠ "N/A" := by
  unfold authorEmailCandidate at h
  by_cases ht : pyTruthy (authorNameVal a) = true
  · rw [if_pos ht] at h
    obtain ⟨t, _, hts⟩ := findSome?_some h
    exact emailSearch_ne_NA hts
  · rw [if_neg ht] at h; cases h

theorem processAuthor_email (st : ParseState) (a : Xml) :
    (processAuthor st a).correspondingEmail =
      (if st.correspondingEmail = "N/A" then
        match authorEmailCandidate a with
        | some e => e
        | none => "N/A"
      else st.correspondingEmail) := by
  unfold processAuthor authorEmailCandidate
  by_cases ht : pyTruthy (authorNameVal a) = true
  · rw [if_pos ht, if_pos ht]
    dsimp only
    obtain ⟨hEq, _, _⟩ := affilFold_preserve (authorAffiliations a)
      ({ st with authors := st.authors ++ [pyStr (authorNameVal a)] }, false)
    set stp := (authorAffiliations a).foldl processAffiliation
      ({ st with authors := st.authors ++ [pyStr (authorNameVal a)] }, false)
      with hstp
    have hq : ∀ b : Bool,
        ((if b = true then
            { stp.1 with nonAcademicAuthors :=
                stp.1.nonAcademicAuthors ++ [pyStr (authorNameVal a)] }
          else stp.1) : ParseState).correspondingEmail =
          st.correspondingEmail := by
      intro b; cases b <;> simp [hEq]
    rw [hq stp.2]
    by_cases he : st.correspondingEmail = "N/A"
    · rw [if_pos he, if_pos he]
      cases (authorAffiliations a).findSome? emailSearch with
      | some e => rfl
      | none => exact (hq stp.2).trans he
    · rw [if_neg he, if_neg he]
      exact hq stp.2
  · rw [if_neg ht, if_neg ht]
    dsimp only
    by_cases he : st.correspondingEmail = "N/A"
    · rw [if_pos he]; exact he
    · rw [if_neg he]

theorem authorFold_email_stable (as : List Xml) :
    ∀ st : ParseState, st.correspondingEmail ≠ "N/A" →
    (as.foldl processAuthor st).correspondingEmail = st.correspondingEmail := by
  induction as with
  | nil => exact fun st _ => rfl
  | cons a as ih =>
    intro st hst
    rw [List.foldl_cons]
    have hstep : (processAuthor st a).correspondingEmail =
        st.correspondingEmail := by
      rw [processAuthor_email, if_neg hst]
    rw [ih (processAuthor st a) (by rw [hstep]; exact hst), hstep]

theorem authorFold_email (as : List Xml) :
    ∀ st : ParseState, st.correspondingEmail = "N/A" →
    (as.foldl processAuthor st).correspondingEmail =
      (match as.findSome? authorEmailCandidate with
       | some e => e
       | none => "N/A") := by
  induction as with
  | nil => intro st hst; simp [List.findSome?]; exact hst
  | cons a as ih =>
    intro st hst
    rw [List.foldl_cons, List.findSome?_cons]
    cases hc : authorEmailCandidate a with
    | some e =>
      have hstep : (processAuthor st a).correspondingEmail = e := by
        rw [processAuthor_email, if_pos hst, hc]
      rw [authorFold_email_stable as (processAuthor st a)
        (by rw [hstep]; exact authorEmailCandidate_ne_NA hc), hstep]
    | none =>
      have hstep : (processAuthor st a).correspondingEmail = "N/A" := by
        rw [processAuthor_email, if_pos hst, hc]
      exact ih (processAuthor st a) hstep

theorem processAuthor_nonAcad (st : ParseState) (a : Xml) :
    (processAuthor st a).nonAcademicAuthors =
      st.nonAcademicAuthors ++
        (if pyTruthy (authorNameVal a) &&
            (authorAffiliations a).any is_non_academic_affiliation then
          [pyStr (authorNameVal a)] else []) := by
  unfold processAuthor
  by_cases ht : pyTruthy (authorNameVal a) = true
  · rw [if_pos ht]
    dsimp only
    obtain ⟨_, hNA, _⟩ := affilFold_preserve (authorAffiliations a)
      ({ st with authors := st.authors ++ [pyStr (authorNameVal a)] }, false)
    have hflag := affilFold_flag (authorAffiliations a)
      ({ st with authors := st.authors ++ [pyStr (authorNameVal a)] }, false)
    set stp := (authorAffiliations a).foldl processAffiliation
      ({ st with authors := st.authors ++ [pyStr (authorNameVal a)] }, false)
      with hstp
    simp only [Bool.false_or] at hflag
    have hq : ((if stp.2 = true then
          { stp.1 with nonAcademicAuthors :=
              stp.1.nonAcademicAuthors ++ [pyStr (authorNameVal a)] }
        else stp.1) : ParseState).nonAcademicAuthors =
        st.nonAcademicAuthors ++
          (if (authorAffiliations a).any is_non_academic_affiliation then
            [pyStr (authorNameVal a)] else []) := by
      rw [hflag] at *
      by_cases hb : (authorAffiliations a).any is_non_academic_affiliation = true
      · simp only [hb, if_true, hNA]
      · simp only [Bool.not_eq_true] at hb
        simp [hb, hNA]
    set stq := (if stp.2 = true then
        { stp.1 with nonAcademicAuthors :=
            stp.1.nonAcademicAuthors ++ [pyStr (authorNameVal a)] }
      else stp.1) with hstq
    have hfinal : ∀ r : ParseState, r = stq →
        ((if r.correspondingEmail = "N/A" then
          match (authorAffiliations a).findSome? emailSearch with
          | some e => { r with correspondingEmail := e }
          | none => r
        else r) : ParseState).nonAcademicAuthors = r.nonAcademicAuthors := by
      intro r _
      by_cases he : r.correspondingEmail = "N/A"
      · rw [if_pos he]
        cases (authorAffiliations a).findSome? emailSearch with
        | some e => rfl
        | none => rfl
      · rw [if_neg he]
    rw [hfinal stq rfl, hq, ht]
    simp
  · rw [if_neg ht]
    simp only [Bool.not_eq_true] at ht
    simp [ht]

theorem authorFold_nonAcad (as : List Xml) :
    ∀ st : ParseState,
    (as.foldl processAuthor st).nonAcademicAuthors =
      st.nonAcademicAuthors ++
        as.filterMap (fun a =>
          if pyTruthy (authorNameVal a) &&
              (authorAffiliations a).any is_non_academic_affiliation then
            some (pyStr (authorNameVal a)) else none) := by
  induction as with
  | nil => intro st; simp
  | cons a as ih =>
    intro st
    rw [List.foldl_cons, ih, processAuthor_nonAcad, List.filterMap_cons]
    by_cases hc : (pyTruthy (authorNameVal a) &&
        (authorAffiliations a).any is_non_academic_affiliation) = true
    · simp [hc, List.append_assoc]
    · simp only [Bool.not_eq_true] at hc
      simp [hc]

theorem findSome?_append {α β : Type} (l1 l2 : List α) (f : α → Option β) :
    (l1 ++ l2).findSome? f =
      (match l1.findSome? f with
       | some r => some r
       | none => l2.findSome? f) := by
  induction l1 with
  | nil => simp [List.findSome?]
  | cons a l1 ih =>
    rw [List.cons_append, List.findSome?_cons, List.findSome?_cons]
    cases f a with
    | some b => rfl
    | none => exact ih

theorem findSome?_congr {α β : Type} {l : List α} {f g : α → Option β}
    (h : ∀ x ∈ l, f x = g x) : l.findSome? f = l.findSome? g := by
  induction l with
  | nil => rfl
  | cons a l ih =>
    rw [List.findSome?_cons, List.findSome?_cons,
      h a (List.mem_cons_self a l),
      ih (fun x hx => h x (List.mem_cons_of_mem a hx))]

theorem processedAuthors_bind_findSome (article : Xml) :
    ((processedAuthors article).flatMap Prod.snd).findSome? emailSearch =
      (authorElems article).findSome? authorEmailCandidate := by
  unfold processedAuthors
  induction authorElems article with
  | nil => rfl
  | cons a as ih =>
    rw [List.filterMap_cons, List.findSome?_cons]
    have hcand : authorEmailCandidate a =
        (if pyTruthy (authorNameVal a) = true then
          (authorAffiliations a).findSome? emailSearch else none) := rfl
    by_cases ht : pyTruthy (authorNameVal a) = true
    · rw [if_pos ht]
      dsimp only
      rw [List.flatMap_cons, findSome?_append]
      rw [hcand, if_pos ht]
      cases (authorAffiliations a).findSome? emailSearch with
      | some e => rfl
      | none => exact ih
    · rw [if_neg ht, hcand, if_neg ht]
      dsimp only
      exact ih

theorem parseArticle_fields {article : Xml} {p : ParsedArticle}
    (h : parseArticle article = some p) :
    p.nonAcademicAuthors = (articleState article).nonAcademicAuthors ∧
    p.companyAffiliations = (articleState article).companyAffiliations ∧
    p.correspondingEmail =
      (if (articleState article).correspondingEmail = "N/A" then
        match article.descendants.findSome? (fun el =>
          match el.text with
          | some t => if t ≠ "" && strContains t "@" then emailSearch t else none
          | none => none) with
        | some e => e
        | none => "N/A"
      else (articleState article).correspondingEmail) := by
  unfold parseArticle at h
  cases hd : computePubDate article with
  | exn => rw [hd] at h; cases h
  | ok pd =>
    rw [hd] at h
    dsimp only at h
    have hrec := (Option.some.injEq _ _).mp h
    subst hrec
    exact ⟨rfl, rfl, rfl⟩

/-! ### C8: corresponding email -/

/-- **C8.** For every parsed record, the corresponding email is the first
pattern match scanning the processed authors' affiliation strings in document
order; only if no affiliation matches is every text-bearing descendant node
scanned for the same pattern (first match winning); with no match anywhere
the field is the sentinel "N/A". -/
theorem C8_corresponding_email (article : Xml) (p : ParsedArticle)
    (h : parseArticle article = some p) :
    p.correspondingEmail = emailSpec article := by
  obtain ⟨_, _, hemail⟩ := parseArticle_fields h
  rw [hemail]
  unfold emailSpec
  rw [processedAuthors_bind_findSome]
  have hst : (articleState article).correspondingEmail =
      (match (authorElems article).findSome? authorEmailCandidate with
       | some e => e
       | none => "N/A") := authorFold_email _ _ rfl
  cases hfs : (authorElems article).findSome? authorEmailCandidate with
  | some e =>
    rw [hfs] at hst
    have hne : e ≠ "N/A" := by
      obtain ⟨a, _, hc⟩ := findSome?_some hfs
      exact authorEmailCandidate_ne_NA hc
    rw [if_neg (by rw [hst]; exact hne)]
    exact hst
  | none =>
    rw [hfs] at hst
    rw [if_pos hst]
    rw [findSome?_congr (fun el _ => emailNode_eq el)]

/-- Witness for C8: in `artC8` the email is found in the author's
affiliation text. -/
theorem C8_witness : pC8.correspondingEmail = emailSpec artC8 :=
  C8_corresponding_email artC8 pC8 (by decide)

/-! ### C10: non-academic author membership -/

theorem processedAuthors_filter_map (article : Xml) :
    ((processedAuthors article).filter
      (fun pa => pa.2.any is_non_academic_affiliation)).map Prod.fst =
      (authorElems article).filterMap (fun a =>
        if pyTruthy (authorNameVal a) &&
            (authorAffiliations a).any is_non_academic_affiliation then
          some (pyStr (authorNameVal a)) else none) := by
  unfold processedAuthors
  induction authorElems article with
  | nil => rfl
  | cons a as ih =>
    rw [List.filterMap_cons, List.filterMap_cons]
    by_cases ht : pyTruthy (authorNameVal a) = true
    · rw [if_pos ht]
      dsimp only
      by_cases hany :
          (authorAffiliations a).any is_non_academic_affiliation = true
      · have hcond : (pyTruthy (authorNameVal a) &&
            (authorAffiliations a).any is_non_academic_affiliation) = true := by
          simp [ht, hany]
        rw [hcond]
        rw [List.filter_cons_of_pos (by exact hany), List.map_cons, ih]
        rfl
      · have hcond : (pyTruthy (authorNameVal a) &&
            (authorAffiliations a).any is_non_academic_affiliation) = false := by
          simp only [Bool.not_eq_true] at hany
          simp [hany]
        rw [hcond]
        rw [List.filter_cons_of_neg (by simp [hany]), ih]
        rfl
    · rw [if_neg ht]
      have hcond : (pyTruthy (authorNameVal a) &&
          (authorAffiliations a).any is_non_academic_affiliation) = false := by
        simp only [Bool.not_eq_true] at ht
        simp [ht]
      rw [hcond]
      exact ih.trans rfl

/-- **C10.** An author's name appears in the non-academic author list iff the
author has at least one affiliation classified non-academic — independently
of company-name extraction: the list equals the names of exactly the
processed authors with a non-academic affiliation, in order.  The concrete
record `artC10` has a non-empty non-academic author list with an empty
`companyAffiliations` set and is excluded by the filter. -/
theorem C10_nonacademic_membership :
    (∀ article p, parseArticle article = some p →
      p.nonAcademicAuthors =
        ((processedAuthors article).filter
          (fun pa => pa.2.any is_non_academic_affiliation)).map Prod.fst) ∧
    (parseArticle artC10 = some pC10 ∧
     pC10.nonAcademicAuthors = ["Smith"] ∧
     pC10.companyAffiliations = [] ∧
     filter_papers_with_pharma_biotech_affiliations [paperDict pC10] = []) := by
  constructor
  · intro article p h
    obtain ⟨hna, _, _⟩ := parseArticle_fields h
    rw [hna, processedAuthors_filter_map]
    unfold articleState
    rw [authorFold_nonAcad (authorElems article) ⟨[], [], [], [], "N/A"⟩]
    rw [List.nil_append]
  · exact ⟨by decide, by decide, by decide, by decide⟩

/-- Witness for C10: the membership characterization applied to `artC10`. -/
theorem C10_witness :
    pC10.nonAcademicAuthors =
      ((processedAuthors artC10).filter
        (fun pa => pa.2.any is_non_academic_affiliation)).map Prod.fst :=
  C10_nonacademic_membership.1 artC10 pC10 (by decide)

/-! ### C2: the filter predicate and the pipeline -/

theorem fetchGo_papers (net : List String → BatchOutcome)
    (bs : List (List String)) :
    (fetchGo net bs).papers = (fetchParsedGo net bs).map paperDict := by
  induction bs with
  | nil => rfl
  | cons b bs ih =>
    rw [fetchGo, fetchParsedGo]
    cases net b with
    | ok arts =>
      dsimp only
      rw [List.map_append, ih]
      congr 1
      rw [List.map_filterMap]
      rfl
    | transportErr => simpa using ih
    | xmlErr => simpa using ih

theorem fetch_papers (pmids : List String) (net : List String → BatchOutcome) :
    (fetch_paper_details pmids net).papers =
      (fetchParsed pmids net).map paperDict := by
  unfold fetch_paper_details fetchParsed
  by_cases h : pmids = []
  · simp [h, fetchGo]
  · simp only [h, if_false]
    exact fetchGo_papers net (chunks100 pmids)

theorem mem_fetchParsedGo {x : ParsedArticle}
    {net : List String → BatchOutcome} :
    ∀ {bs : List (List String)}, x ∈ fetchParsedGo net bs →
    ∃ a, parseArticle a = some x := by
  intro bs
  induction bs with
  | nil => intro h; simp [fetchParsedGo] at h
  | cons b bs ih =>
    intro h
    rw [fetchParsedGo] at h
    rcases List.mem_append.mp h with h | h
    · cases hb : net b with
      | ok arts =>
        rw [hb] at h
        obtain ⟨a, _, ha⟩ := List.mem_filterMap.mp h
        exact ⟨a, ha⟩
      | transportErr => rw [hb] at h; simp at h
      | xmlErr => rw [hb] at h; simp at h
    · exact ih h

theorem parsed_company_ne_NA {article : Xml} {p : ParsedArticle}
    (h : parseArticle article = some p) :
    ∀ x ∈ p.companyAffiliations, x ≠ "N/A" := by
  obtain ⟨_, hcomp, _⟩ := parseArticle_fields h
  rw [hcomp]
  unfold articleState
  exact authorFold_company_inv (authorElems article) ⟨[], [], [], [], "N/A"⟩
    (fun x => x ≠ "N/A") (by intro x hx; simp at hx)
    (fun aff cn hcn => extract_ne_NA hcn)

theorem joinSemi_cons2_ne_NA (x y : String) (t : List String) :
    joinSemi (x :: y :: t) ≠ "N/A" := by
  intro h
  have hdata := congrArg String.data h
  rw [joinSemi] at hdata
  have hsemi : (';' : Char) ∈ (x ++ "; " ++ joinSemi (y :: t)).data := by
    rw [String.data_append, String.data_append]
    exact List.mem_append_left _
      (List.mem_append_right _ (by decide))
  rw [hdata] at hsemi
  revert hsemi
  decide

/-- The dict field `Company Affiliation(s)` differs from `"N/A"` iff the
underlying set is non-empty (its members never being the sentinel). -/
theorem companyField_iff (l : List String) (hne : ∀ x ∈ l, x ≠ "N/A") :
    ((if l ≠ [] then joinSemi l else "N/A") ≠ "N/A") ↔ l ≠ [] := by
  cases l with
  | nil => simp
  | cons x t =>
    cases t with
    | nil =>
      simp only [ne_eq, reduceCtorEq, not_false_eq_true, if_true, joinSemi]
      have := hne x (List.mem_cons_self x [])
      simp [this]
    | cons y t =>
      simp only [ne_eq, reduceCtorEq, not_false_eq_true, if_true]
      have := joinSemi_cons2_ne_NA x y t
      simp [this]

theorem processAuthor_company_noaffs (st : ParseState) (a : Xml)
    (h : pyTruthy (authorNameVal a) = true → authorAffiliations a = []) :
    (processAuthor st a).companyAffiliations = st.companyAffiliations := by
  unfold processAuthor
  by_cases ht : pyTruthy (authorNameVal a) = true
  · rw [if_pos ht]
    dsimp only
    rw [h ht]
    simp [List.findSome?]
  · rw [if_neg ht]

theorem authorFold_company_noaffs (as : List Xml) :
    ∀ st : ParseState, (∀ a ∈ as, pyTruthy (authorNameVal a) = true →
      authorAffiliations a = []) →
    (as.foldl processAuthor st).companyAffiliations = st.companyAffiliations := by
  induction as with
  | nil => exact fun st _ => rfl
  | cons a as ih =>
    intro st hall
    rw [List.foldl_cons]
    rw [ih _ (fun x hx => hall x (List.mem_cons_of_mem a hx))]
    exact processAuthor_company_noaffs st a (hall a (List.mem_cons_self a as))

/-- **C2.** When validation passes, `run` returns exactly the fetched records
whose `companyAffiliations` set is non-empty, in their original order (set
non-emptiness being the sole filter predicate); an empty identifier list
yields the empty sequence; and a record all of whose processed authors have
no non-empty affiliation text has an empty `companyAffiliations` set and is
excluded by the filter. -/
theorem C2_run_filters_by_company (query : String) (maxResults : Int)
    (netIds : List String) (net : List String → BatchOutcome)
    (hval : validate_query query = none) (hmr : ¬ maxResults < 1) :
    (run query maxResults netIds net =
      .ok (((fetchParsed netIds net).filter
        (fun p => !p.companyAffiliations.isEmpty)).map paperDict)) ∧
    (netIds = [] → run query maxResults netIds net = .ok []) ∧
    (∀ article p, parseArticle article = some p →
      (∀ pa ∈ processedAuthors article, pa.2 = []) →
      p.companyAffiliations = [] ∧
      filter_papers_with_pharma_biotech_affiliations [paperDict p] = []) := by
  have hsearch : (search_papers query maxResults netIds).result = .ok netIds := by
    unfold search_papers
    rw [hval, if_neg hmr]
  refine ⟨?_, ?_, ?_⟩
  · unfold run
    rw [hsearch]
    dsimp only
    by_cases h : netIds = []
    · simp [h, fetchParsed]
    · rw [if_neg h]
      congr 1
      unfold filter_papers_with_pharma_biotech_affiliations
      rw [fetch_papers, List.filter_map]
      congr 1
      apply List.filter_congr
      intro p hp
      obtain ⟨a, ha⟩ := mem_fetchParsedGo (by
        unfold fetchParsed at hp
        rw [if_neg h] at hp
        exact hp)
      have hne := parsed_company_ne_NA ha
      have hiff := companyField_iff p.companyAffiliations hne
      show decide ((paperDict p).companyAffiliationsField ≠ "N/A") =
        !p.companyAffiliations.isEmpty
      have hfield : (paperDict p).companyAffiliationsField =
          (if p.companyAffiliations ≠ [] then joinSemi p.companyAffiliations
           else "N/A") := rfl
      rw [hfield]
      by_cases hemp : p.companyAffiliations = []
      · simp [hemp]
      · simp only [hemp, ne_eq, not_false_eq_true, if_true]
        have h1 : joinSemi p.companyAffiliations ≠ "N/A" := by
          intro hj
          exact (hiff.mpr hemp) (by
            simp only [ne_eq, hemp, not_false_eq_true, if_true]
            exact hj)
        have h2 : p.companyAffiliations.isEmpty = false := by
          cases hl : p.companyAffiliations with
          | nil => exact absurd hl hemp
          | cons c t => rfl
        simp [h1, h2]
  · intro h
    unfold run
    rw [hsearch]
    dsimp only
    rw [if_pos h]
  · intro article p hparse hall
    have hcomp : p.companyAffiliations = [] := by
      obtain ⟨_, hc, _⟩ := parseArticle_fields hparse
      rw [hc]
      unfold articleState
      apply authorFold_company_noaffs
      intro a ha ht
      have hmem : (pyStr (authorNameVal a), authorAffiliations a) ∈
          processedAuthors article := by
        unfold processedAuthors
        exact List.mem_filterMap.mpr ⟨a, ha, by rw [if_pos ht]⟩
      exact hall _ hmem
    refine ⟨hcomp, ?_⟩
    unfold filter_papers_with_pharma_biotech_affiliations
    have hfield : (paperDict p).companyAffiliationsField = "N/A" := by
      show (if p.companyAffiliations ≠ [] then joinSemi p.companyAffiliations
        else "N/A") = "N/A"
      simp [hcomp]
    simp [List.filter, hfield]

/-- Witness for C2: a single successful batch containing `artC8` (kept: its
company set is non-empty) and `artC10` (dropped: empty company set). -/
theorem C2_witness :
    run "cancer" 10 ["7", "9"] (fun _ => .ok [artC8, artC10]) =
      .ok (((fetchParsed ["7", "9"] (fun _ => .ok [artC8, artC10])).filter
        (fun p => !p.companyAffiliations.isEmpty)).map paperDict) :=
  (C2_run_filters_by_company "cancer" 10 ["7", "9"]
    (fun _ => .ok [artC8, artC10]) (by decide) (by decide)).1

/-! ### C9: lemmas about `pyStripL` -/

theorem dropWhile_head?_false (p : Char → Bool) :
    ∀ (l : List Char) (c : Char), (l.dropWhile p).head? = some c →
    p c = false := by
  intro l
  induction l with
  | nil => intro c h; simp at h
  | cons x rest ih =>
    intro c h
    by_cases hp : p x = true
    · rw [List.dropWhile_cons_of_pos hp] at h
      exact ih c h
    · rw [List.dropWhile_cons_of_neg hp] at h
      simp only [List.head?_cons, Option.some.injEq] at h
      rw [← h]
      exact Bool.not_eq_true _ |>.mp hp

theorem dropWhile_eq_self_of_head (p : Char → Bool) (l : List Char)
    (h : ∀ c, l.head? = some c → p c = false) : l.dropWhile p = l := by
  cases l with
  | nil => rfl
  | cons x rest =>
    have := h x rfl
    rw [List.dropWhile_cons_of_neg (by simp [this])]

theorem dropWhile_getLast? (p : Char → Bool) :
    ∀ l : List Char, l.dropWhile p ≠ [] →
    (l.dropWhile p).getLast? = l.getLast? := by
  intro l
  induction l with
  | nil => intro h; simp at h
  | cons x rest ih =>
    intro h
    by_cases hp : p x = true
    · rw [List.dropWhile_cons_of_pos hp] at h ⊢
      rw [ih h]
      have hrest : rest ≠ [] := by
        intro he; rw [he] at h; simp at h
      cases rest with
      | nil => exact absurd rfl hrest
      | cons y t => rw [List.getLast?_cons_cons]
    · rw [List.dropWhile_cons_of_neg hp]

theorem pyStripL_head (cs : List Char) :
    ∀ c, (pyStripL cs).head? = some c → pySpace c = false := by
  intro c h
  unfold pyStripL at h
  rw [List.head?_reverse] at h
  by_cases hB : ((cs.dropWhile pySpace).reverse.dropWhile pySpace) = []
  · rw [hB] at h; simp at h
  · rw [dropWhile_getLast? pySpace _ hB, List.getLast?_reverse] at h
    exact dropWhile_head?_false pySpace cs c h

theorem pyStripL_last (cs : List Char) :
    ∀ c, (pyStripL cs).getLast? = some c → pySpace c = false := by
  intro c h
  unfold pyStripL at h
  rw [List.getLast?_reverse] at h
  exact dropWhile_head?_false pySpace _ c h

theorem pyStripL_eq_self (cs : List Char)
    (h1 : ∀ c, cs.head? = some c → pySpace c = false)
    (h2 : ∀ c, cs.getLast? = some c → pySpace c = false) :
    pyStripL cs = cs := by
  unfold pyStripL
  rw [dropWhile_eq_self_of_head pySpace cs h1]
  rw [dropWhile_eq_self_of_head pySpace cs.reverse
    (fun c hc => h2 c (by rw [← List.head?_reverse]; exact hc))]
  exact List.reverse_reverse cs

theorem pyStripL_idem (cs : List Char) :
    pyStripL (pyStripL cs) = pyStripL cs :=
  pyStripL_eq_self (pyStripL cs) (pyStripL_head cs) (pyStripL_last cs)

theorem firstAlt_nil : ∀ {alts : List (List Char)}, (∀ a ∈ alts, a ≠ []) →
    firstAlt alts [] = none := by
  intro alts
  induction alts with
  | nil => intro _; rfl
  | cons b alts ih =>
    intro h
    unfold firstAlt
    have hb : b.isPrefixOf ([] : List Char) = false := by
      cases b with
      | nil => exact absurd rfl (h [] (List.mem_cons_self _ _))
      | cons x t => rfl
    rw [List.find?_cons_of_neg _ (by simp [hb])]
    exact ih (fun a ha => h a (List.mem_cons_of_mem b ha))

theorem firstAlt_isSome_of_exists {alts : List (List Char)} {rem : List Char}
    (h : ∃ b ∈ alts, b.isPrefixOf rem = true) :
    firstAlt alts rem ≠ none := by
  unfold firstAlt
  obtain ⟨b, hb, hpre⟩ := h
  intro hnone
  have := List.find?_eq_none.mp hnone b hb
  simp [hpre] at this

/-- If the first alternative matching `a ++ t` is `a` itself, then the first
alternative matching just `a` is also `a` (earlier alternatives that fail on
the longer text also fail on its prefix). -/
theorem firstAlt_prefix_self : ∀ {alts : List (List Char)} {a t : List Char},
    firstAlt alts (a ++ t) = some a → firstAlt alts a = some a := by
  intro alts
  induction alts with
  | nil => intro a t h; simp [firstAlt, List.find?] at h
  | cons b alts ih =>
    intro a t h
    unfold firstAlt at h ⊢
    by_cases hb : b.isPrefixOf (a ++ t) = true
    · rw [List.find?_cons_of_pos _ (by exact hb)] at h
      have hba : b = a := (Option.some.injEq _ _).mp h
      subst hba
      rw [List.find?_cons_of_pos _ (by
        exact List.isPrefixOf_iff_prefix.mpr (List.prefix_refl b))]
    · rw [List.find?_cons_of_neg _ (by simp [hb])] at h
      have hba : b.isPrefixOf a = false := by
        by_contra hcon
        simp only [Bool.not_eq_false] at hcon
        have : b.isPrefixOf (a ++ t) = true :=
          List.isPrefixOf_iff_prefix.mpr
            ((List.isPrefixOf_iff_prefix.mp hcon).trans (List.prefix_append a t))
        rw [this] at hb
        exact hb rfl
      rw [List.find?_cons_of_neg _ (by simp [hba])]
      exact ih h

/-- Descending characterization of `tryBody`: if the first success when
retracting from `k` is at body length `j0`, the result is pinned. -/
theorem tryBody_down {alts : List (List Char)} {rest a : List Char} {j0 : Nat}
    (hj0 : 1 ≤ j0) (hfa : firstAlt alts (rest.drop j0) = some a) :
    ∀ k, j0 ≤ k → (∀ j, j0 < j → j ≤ k → firstAlt alts (rest.drop j) = none) →
    tryBody alts rest k = some (rest.take j0 ++ a) := by
  intro k
  induction k with
  | zero => intro hle _; omega
  | succ k ih =>
    intro hle hnone
    rw [tryBody]
    by_cases heq : j0 = k + 1
    · subst heq
      rw [hfa]
    · have hlt : j0 ≤ k := by omega
      rw [hnone (k + 1) (by omega) le_rfl]
      exact ih hlt (fun j hj1 hj2 => hnone j hj1 (by omega))

/-- Re-running the matcher on its own match returns the match itself. -/
theorem reSearch_self {alts : List (List Char)} {c : Char} {body a : List Char}
    (hc : c.isUpper = true)
    (hbody : ∀ x ∈ body, bodyChar x = true)
    (hbodyne : body ≠ [])
    (hfa : firstAlt alts a = some a)
    (hsuf : ∀ d, 1 ≤ d → firstAlt alts (a.drop d) = none) :
    reSearch alts (c :: (body ++ a)) = some (c :: (body ++ a)) := by
  have htw : (body ++ a).takeWhile bodyChar = body ++ a.takeWhile bodyChar :=
    List.takeWhile_append_of_pos hbody
  have hlen : ((body ++ a).takeWhile bodyChar).length =
      body.length + (a.takeWhile bodyChar).length := by rw [htw]; simp
  have hj0 : 1 ≤ body.length := by
    cases body with
    | nil => exact absurd rfl hbodyne
    | cons _ _ => simp
  have hfa0 : firstAlt alts ((body ++ a).drop body.length) = some a := by
    rw [List.drop_left]; exact hfa
  have htb : tryBody alts (body ++ a) ((body ++ a).takeWhile bodyChar).length =
      some ((body ++ a).take body.length ++ a) := by
    apply tryBody_down hj0 hfa0
    · rw [hlen]; omega
    · intro j hj1 hj2
      have hd : (body ++ a).drop j = a.drop (j - body.length) := by
        rw [show (body ++ a).drop j =
            ((body ++ a).drop body.length).drop (j - body.length) by
          rw [List.drop_drop]
          congr 1
          omega]
        rw [List.drop_left]
      rw [hd]
      exact hsuf (j - body.length) (by omega)
  rw [reSearch, tryAt, if_pos hc, htb, List.take_left]

theorem le_takeWhile_of_take_all {p : Char → Bool} :
    ∀ (l : List Char) (j : Nat), j ≤ l.length → (∀ x ∈ l.take j, p x = true) →
    j ≤ (l.takeWhile p).length := by
  intro l
  induction l with
  | nil => intro j hj _; simpa using hj
  | cons c rest ih =>
    intro j hj hall
    cases j with
    | zero => exact Nat.zero_le _
    | succ j' =>
      have hc : p c = true := hall c (by
        rw [List.take_succ_cons]; exact List.mem_cons_self _ _)
      rw [List.takeWhile_cons_of_pos hc, List.length_cons]
      refine Nat.succ_le_succ (ih j' (by simpa using hj) ?_)
      intro x hx
      exact hall x (by rw [List.take_succ_cons]; exact List.mem_cons_of_mem c hx)

theorem tryBody_none_iff {alts : List (List Char)} {rest : List Char} :
    ∀ {k : Nat}, tryBody alts rest k = none ↔
      (∀ j, 1 ≤ j → j ≤ k → firstAlt alts (rest.drop j) = none) := by
  intro k
  induction k with
  | zero =>
    simp only [tryBody]
    constructor
    · intro _ j h1 h2; omega
    · intro _; trivial
  | succ k ih =>
    constructor
    · intro h j h1 h2
      rw [tryBody] at h
      cases hfa : firstAlt alts (rest.drop (k + 1)) with
      | some alt => rw [hfa] at h; cases h
      | none =>
        rw [hfa] at h
        rcases Nat.lt_or_ge j (k + 1) with hlt | hge
        · exact ih.mp h j h1 (by omega)
        · have hj : j = k + 1 := by omega
          rw [hj]; exact hfa
    · intro h
      rw [tryBody, h (k + 1) (by omega) le_rfl]
      exact ih.mpr (fun j h1 h2 => h j h1 (by omega))

theorem tryAt_prefix {alts : List (List Char)} {v w m : List Char}
    (hp : v <+: w) (h : tryAt alts v = some m) :
    tryAt alts w ≠ none := by
  obtain ⟨c, rest_v, j, a, hv, hc, hj1, hjtw, hmem, hpre, _, _⟩ := tryAt_some h
  subst hv
  obtain ⟨t, rfl⟩ := hp
  rw [List.cons_append, tryAt, if_pos hc]
  intro hnone
  cases htb : tryBody alts (rest_v ++ t)
      ((rest_v ++ t).takeWhile bodyChar).length with
  | some x => rw [htb] at hnone; cases hnone
  | none =>
    have hjv : j ≤ rest_v.length :=
      le_trans hjtw (List.takeWhile_prefix bodyChar).length_le
    have htake_eq : (rest_v ++ t).take j = rest_v.take j :=
      List.take_append_of_le_length hjv
    have hjw : j ≤ ((rest_v ++ t).takeWhile bodyChar).length := by
      apply le_takeWhile_of_take_all
      · rw [List.length_append]; omega
      · rw [htake_eq]; exact mem_take_of_le_takeWhile hjtw
    have hdropp : rest_v.drop j <+: (rest_v ++ t).drop j := by
      rw [List.drop_append_of_le_length hjv]
      exact List.prefix_append _ _
    have hex : firstAlt alts ((rest_v ++ t).drop j) ≠ none := by
      apply firstAlt_isSome_of_exists
      refine ⟨a, hmem, ?_⟩
      exact List.isPrefixOf_iff_prefix.mpr
        ((List.isPrefixOf_iff_prefix.mp hpre).trans hdropp)
    exact hex (tryBody_none_iff.mp htb j hj1 hjw)

theorem reSearch_none_iff {alts : List (List Char)} :
    ∀ {cs : List Char}, reSearch alts cs = none ↔
      ∀ i, tryAt alts (cs.drop i) = none := by
  intro cs
  induction cs with
  | nil =>
    simp only [reSearch, List.drop_nil]
    constructor
    · intro _ i; rfl
    · intro _; trivial
  | cons c rest ih =>
    constructor
    · intro h i
      rw [reSearch] at h
      cases ht : tryAt alts (c :: rest) with
      | some m => rw [ht] at h; cases h
      | none =>
        rw [ht] at h
        cases i with
        | zero => exact ht
        | succ i' => exact (ih.mp h) i'
    · intro h
      rw [reSearch]
      have h0 := h 0
      rw [List.drop_zero] at h0
      rw [h0]
      exact ih.mpr (fun i => h (i + 1))

/-- A contiguous substring of a text with no match has no match. -/
theorem reSearch_none_sub {alts : List (List Char)} {u v : List Char} {i : Nat}
    (h : reSearch alts u = none) (hp : v <+: u.drop i) :
    reSearch alts v = none := by
  rw [reSearch_none_iff] at h ⊢
  intro j
  cases htv : tryAt alts (v.drop j) with
  | none => rfl
  | some m =>
    exfalso
    by_cases hle : j ≤ v.length
    · obtain ⟨t, ht⟩ := hp
      have hpd : v.drop j <+: u.drop (i + j) := by
        rw [← List.drop_drop j i u, ← ht, List.drop_append_of_le_length hle]
        exact List.prefix_append _ _
      exact tryAt_prefix hpd htv (h (i + j))
    · have hnil : v.drop j = [] := List.drop_eq_nil_of_le (by omega)
      rw [hnil] at htv
      cases htv

theorem isUpper_not_pySpace {c : Char} (h : c.isUpper = true) :
    pySpace c = false := by
  by_contra hcon
  simp only [Bool.not_eq_false] at hcon
  unfold pySpace at hcon
  simp only [Bool.or_eq_true, decide_eq_true_eq] at hcon
  rcases hcon with ((((h1 | h1) | h1) | h1) | h1) | h1 <;>
    (subst h1; exact absurd h (by decide))

theorem prefix_drop_any {v w : List Char} (k : Nat) (h : v <+: w) :
    v.drop k <+: w.drop k := by
  by_cases hk : k ≤ v.length
  · obtain ⟨t, rfl⟩ := h
    rw [List.drop_append_of_le_length hk]
    exact List.prefix_append _ _
  · rw [List.drop_eq_nil_of_le (by omega)]
    exact List.nil_prefix

theorem splitOnComma_ne_nil : ∀ cs : List Char, splitOnComma cs ≠ [] := by
  intro cs
  cases cs with
  | nil => simp [splitOnComma]
  | cons c rest =>
    rw [splitOnComma]
    by_cases hc : c = ','
    · simp [hc]
    · rw [if_neg hc]
      cases splitOnComma rest with
      | nil => simp
      | cons p ps => simp

theorem splitOnComma_head_prefix :
    ∀ (cs p0 : List Char) (ps : List (List Char)),
    splitOnComma cs = p0 :: ps → p0 <+: cs := by
  intro cs
  induction cs with
  | nil =>
    intro p0 ps h
    rw [splitOnComma] at h
    rw [(List.cons.injEq _ _ _ _ |>.mp h).1.symm]
  | cons c rest ih =>
    intro p0 ps h
    rw [splitOnComma] at h
    by_cases hc : c = ','
    · rw [if_pos hc] at h
      rw [← (List.cons.injEq _ _ _ _ |>.mp h).1]
      exact List.nil_prefix
    · rw [if_neg hc] at h
      cases hs : splitOnComma rest with
      | nil => exact absurd hs (splitOnComma_ne_nil rest)
      | cons q qs =>
        rw [hs] at h
        obtain ⟨h1, _⟩ := List.cons.injEq _ _ _ _ |>.mp h
        rw [← h1]
        obtain ⟨t, ht⟩ := ih q qs hs
        exact ⟨t, by rw [List.cons_append, ht]⟩

theorem splitOnComma_sub :
    ∀ (cs : List Char), ∀ p ∈ splitOnComma cs, ∃ i, p <+: cs.drop i := by
  intro cs
  induction cs with
  | nil =>
    intro p hp
    rw [splitOnComma] at hp
    rw [List.mem_singleton.mp hp]
    exact ⟨0, List.nil_prefix⟩
  | cons c rest ih =>
    intro p hp
    rw [splitOnComma] at hp
    by_cases hc : c = ','
    · rw [if_pos hc] at hp
      rcases List.mem_cons.mp hp with hp | hp
      · rw [hp]; exact ⟨0, List.nil_prefix⟩
      · obtain ⟨i, hi⟩ := ih p hp
        exact ⟨i + 1, hi⟩
    · rw [if_neg hc] at hp
      cases hs : splitOnComma rest with
      | nil => exact absurd hs (splitOnComma_ne_nil rest)
      | cons q qs =>
        rw [hs] at hp
        rcases List.mem_cons.mp hp with hp | hp
        · rw [hp]
          obtain ⟨t, ht⟩ := splitOnComma_head_prefix rest q qs hs
          exact ⟨0, t, by rw [List.drop_zero, List.cons_append, ht]⟩
        · obtain ⟨i, hi⟩ := ih p (hs ▸ List.mem_cons_of_mem q hp)
          exact ⟨i + 1, hi⟩

theorem splitOnComma_no_comma :
    ∀ cs : List Char, (',' : Char) ∉ cs → splitOnComma cs = [cs] := by
  intro cs
  induction cs with
  | nil => intro _; rfl
  | cons c rest ih =>
    intro h
    rw [splitOnComma]
    have hc : ¬ c = ',' := fun he => h (he ▸ List.mem_cons_self c rest)
    rw [if_neg hc, ih (fun hm => h (List.mem_cons_of_mem c hm))]

/-- `pyStripL cs` is a contiguous substring of `cs`: a prefix of some
`cs.drop i`. -/
theorem pyStripL_sub (cs : List Char) : ∃ i, pyStripL cs <+: cs.drop i := by
  have hsplit1 : cs.takeWhile pySpace ++ cs.dropWhile pySpace = cs :=
    List.takeWhile_append_dropWhile pySpace cs
  refine ⟨(cs.takeWhile pySpace).length, ?_⟩
  have hdrop : cs.drop (cs.takeWhile pySpace).length = cs.dropWhile pySpace := by
    rw [← List.drop_left (cs.takeWhile pySpace) (cs.dropWhile pySpace), hsplit1]
  rw [hdrop]
  set A := cs.dropWhile pySpace with hA
  have hsplit2 : A.reverse.takeWhile pySpace ++ A.reverse.dropWhile pySpace =
      A.reverse := List.takeWhile_append_dropWhile pySpace A.reverse
  have : pyStripL cs ++ (A.reverse.takeWhile pySpace).reverse = A := by
    unfold pyStripL
    rw [← hA, ← List.reverse_append, hsplit2, List.reverse_reverse]
  exact ⟨(A.reverse.takeWhile pySpace).reverse, this⟩

/-- Case analysis of `extract_company_name`. -/
theorem extract_cases {s r : String} (h : extract_company_name s = some r) :
    (∃ m, reSearch pat1Alts s.data = some m ∧ r = pyStrip (String.mk m)) ∨
    (reSearch pat1Alts s.data = none ∧
      ∃ m, reSearch pat2Alts s.data = some m ∧ r = pyStrip (String.mk m)) ∨
    (reSearch pat1Alts s.data = none ∧ reSearch pat2Alts s.data = none ∧
      fallbackSegment (splitOnComma s.data) = some r) := by
  unfold extract_company_name at h
  by_cases hs : s = ""
  · rw [if_pos hs] at h; cases h
  · rw [if_neg hs] at h
    cases h1 : reSearch pat1Alts s.data with
    | some m =>
      rw [h1] at h
      exact Or.inl ⟨m, rfl, ((Option.some.injEq _ _).mp h).symm⟩
    | none =>
      rw [h1] at h
      cases h2 : reSearch pat2Alts s.data with
      | some m =>
        rw [h2] at h
        exact Or.inr (Or.inl ⟨rfl, m, rfl, ((Option.some.injEq _ _).mp h).symm⟩)
      | none =>
        rw [h2] at h
        exact Or.inr (Or.inr ⟨rfl, rfl, h⟩)

/-- A successful pattern match is strip-stable, re-matches to itself, and is
a contiguous substring of the input. -/
theorem extract_fix_pattern {alts : List (List Char)} {s : String}
    {m : List Char}
    (hm : reSearch alts s.data = some m)
    (haltne : ∀ alt ∈ alts, alt ≠ [])
    (haltlast : ∀ alt ∈ alts,
      (alt.getLast?.elim false (fun c => !pySpace c)) = true)
    (hsufOK : ∀ alt ∈ alts, ∀ d, 1 ≤ d → d < alt.length →
      firstAlt alts (alt.drop d) = none)
    (hnilOK : firstAlt alts [] = none) :
    pyStripL m = m ∧ reSearch alts m = some m ∧
    ∃ i, m <+: s.data.drop i := by
  obtain ⟨i, hi⟩ := reSearch_some hm
  obtain ⟨c, rest, j, a, hcs, hc, hj1, hjtw, hmem, hpre, hfirst, hmeq⟩ :=
    tryAt_some hi
  have hbody : ∀ x ∈ rest.take j, bodyChar x = true :=
    mem_take_of_le_takeWhile hjtw
  have hjlen : j ≤ rest.length :=
    le_trans hjtw (List.takeWhile_prefix bodyChar).length_le
  have hbodyne : rest.take j ≠ [] := by
    cases j with
    | zero => omega
    | succ j' =>
      cases rest with
      | nil => simp at hjlen
      | cons y t => rw [List.take_succ_cons]; simp
  obtain ⟨t, hteq⟩ := List.isPrefixOf_iff_prefix.mp hpre
  have hfa : firstAlt alts a = some a := by
    apply firstAlt_prefix_self (t := t)
    rw [hteq]
    exact hfirst
  have hsuf : ∀ d, 1 ≤ d → firstAlt alts (a.drop d) = none := by
    intro d hd
    by_cases hdl : d < a.length
    · exact hsufOK a hmem d hd hdl
    · rw [List.drop_eq_nil_of_le (by omega)]
      exact hnilOK
  have hself : reSearch alts (c :: (rest.take j ++ a)) =
      some (c :: (rest.take j ++ a)) :=
    reSearch_self hc hbody hbodyne hfa hsuf
  refine ⟨?_, ?_, ?_⟩
  · apply pyStripL_eq_self
    · intro x hx
      rw [hmeq] at hx
      simp only [List.head?_cons, Option.some.injEq] at hx
      rw [← hx]
      exact isUpper_not_pySpace hc
    · intro x hx
      rw [hmeq] at hx
      have hane : a ≠ [] := haltne a hmem
      have h1 : (c :: (rest.take j ++ a)).getLast? = a.getLast? := by
        have e1 : c :: (rest.take j ++ a) = (c :: rest.take j) ++ a := by simp
        rw [e1, List.getLast?_append_of_ne_nil _ hane]
      rw [h1] at hx
      have hlast := haltlast a hmem
      rw [hx] at hlast
      simp only [Option.elim, Bool.not_eq_true'] at hlast
      exact hlast
  · rw [hmeq]; exact hself
  · refine ⟨i, t, ?_⟩
    rw [hmeq, hcs, List.cons_append, List.append_assoc, hteq,
      List.take_append_drop]

/-- **C9.** `extract_company_name` is idempotent: whenever it returns a
result containing no comma, re-running it on that result returns the very
same string (hence, a fortiori, the same string or absent as the claim
states). -/
theorem C9_extract_idempotent (s r : String)
    (h : extract_company_name s = some r)
    (hnc : (',' : Char) ∉ r.data) :
    extract_company_name r = some r ∨ extract_company_name r = none := by
  left
  rcases extract_cases h with ⟨m, h1, hr⟩ | ⟨h1, m, h2, hr⟩ | ⟨h1, h2, hfb⟩
  · obtain ⟨hstrip, hself, i, hsub⟩ :=
      extract_fix_pattern h1 (by decide) (by decide) (by decide) (by decide)
    have hrdata : r.data = m := by
      rw [hr]
      show pyStripL m = m
      exact hstrip
    have hrne : r ≠ "" := by
      intro h0
      rw [h0] at hrdata
      rw [← hrdata] at hself
      simp [reSearch] at hself
    unfold extract_company_name
    rw [if_neg hrne, hrdata, hself, hr]
  · obtain ⟨hstrip, hself, i, hsub⟩ :=
      extract_fix_pattern h2 (by decide) (by decide) (by decide) (by decide)
    have hrdata : r.data = m := by
      rw [hr]
      show pyStripL m = m
      exact hstrip
    have hnone1 : reSearch pat1Alts r.data = none := by
      rw [hrdata]
      exact reSearch_none_sub h1 hsub
    have hrne : r ≠ "" := by
      intro h0
      rw [h0] at hrdata
      rw [← hrdata] at hself
      simp [reSearch] at hself
    unfold extract_company_name
    rw [if_neg hrne, hnone1, hrdata, hself, hr]
  · obtain ⟨part, hpartmem, hpart⟩ := findSome?_some hfb
    dsimp only at hpart
    by_cases hcnd : PHARMA_BIOTECH_KEYWORDS.any
        (fun kw => strContains (pyLower (String.mk (pyStripL part))) kw &&
          decide ((String.mk (pyStripL part)).length < 50)) = true
    · rw [if_pos hcnd] at hpart
      have hpr : String.mk (pyStripL part) = r := (Option.some.injEq _ _).mp hpart
      have hrdata : r.data = pyStripL part := congrArg String.data hpr.symm
      obtain ⟨i0, hp0⟩ := splitOnComma_sub s.data part hpartmem
      obtain ⟨k, hp1⟩ := pyStripL_sub part
      have hsub : r.data <+: s.data.drop (i0 + k) := by
        rw [hrdata]
        have h2' : part.drop k <+: (s.data.drop i0).drop k :=
          prefix_drop_any k hp0
        rw [List.drop_drop] at h2'
        exact hp1.trans h2'
      have hnone1 : reSearch pat1Alts r.data = none := reSearch_none_sub h1 hsub
      have hnone2 : reSearch pat2Alts r.data = none := reSearch_none_sub h2 hsub
      have hsplit : splitOnComma r.data = [r.data] :=
        splitOnComma_no_comma r.data hnc
      rw [hpr] at hcnd
      have hrne : r ≠ "" := by
        intro h0
        rw [h0] at hcnd
        revert hcnd
        decide
      have hidem : pyStripL r.data = r.data := by
        rw [hrdata]
        exact pyStripL_idem part
      unfold extract_company_name
      rw [if_neg hrne, hnone1, hnone2]
      unfold fallbackSegment
      rw [hsplit]
      simp only [List.findSome?]
      rw [hidem]
      have hmkr : String.mk r.data = r := rfl
      rw [hmkr, if_pos hcnd]
    · rw [if_neg hcnd] at hpart
      cases hpart

/-- Witness for C9: applying the theorem to
`"Pfizer Inc., New York, NY" → "Pfizer Inc."`. -/
theorem C9_witness :
    extract_company_name "Pfizer Inc." = some "Pfizer Inc." ∨
    extract_company_name "Pfizer Inc." = none :=
  C9_extract_idempotent "Pfizer Inc., New York, NY" "Pfizer Inc."
    (by decide) (by decide)

end RPF
